import Mathlib

/-!
Verification development for the matching-engine core of the
CRYPTO-MATCHING-ENGINE repository.

This file gives a shallow embedding of `src/engine.py` (PriceLevel,
OrderBook, MatchingEngine), `src/trade_log.py`, `src/stop_orders.py`
and the data model of `src/models.py`, and proves / refutes the claims
of the specification against it.

Modelling conventions:
* Python floats are modelled as rationals (ℚ).  Python's `round(x, n)`
  (round-half-even on the binary value) is modelled as rounding on ℚ;
  no claim below depends on the tie-breaking rule or on binary-float
  artefacts.
* Python dicts keyed by price are modelled as association lists
  `List (ℚ × PriceLevel)` in insertion order; `sorted(d.keys())` is
  modelled by an insertion sort of the key list.
* Mutable heap objects (orders are shared between a price level's list
  and the order-id index, and are mutated in place during matching) are
  modelled by explicit state passing: an in-place update of a resting
  order rewrites the order everywhere the object is reachable
  (`mutateResting`).
* `uuid4()` identifiers are modelled as `Nat`s supplied by the caller
  (orders) or by a threaded counter (trades); the claims below depend
  only on identifier equality and freshness.
* Python timestamps are not modelled; arrival order is represented by
  list position (appends keep FIFO order), which is what the matching
  code itself uses.
* The engine keeps one `OrderBook` per symbol and routes each order to
  the book of its own symbol; the claims are all per-book, so the model
  works with a single book.
* A raised exception (`_match_order` can raise `KeyError`, see below)
  is modelled by a `crashed` flag carried in the result together with
  the book state at the moment of the raise: the exception propagates
  out of `process_order`, so the partially mutated book is exactly the
  state the engine is left in.
-/

namespace Engine

set_option maxRecDepth 16000

/-- Order side, `src/models.py` `side: str  # "buy" or "sell"`. -/
inductive Side
  | buy
  | sell
deriving DecidableEq, Repr

/-- Order type, `src/models.py` `order_type: str  # "market", "limit", "ioc", "fok"`. -/
inductive OrderType
  | market
  | limit
  | ioc
  | fok
deriving DecidableEq, Repr

/-- `src/models.py` class `Order` (the second, overriding definition, with the
stop/conditional fields).  `timestamp` is not modelled (see header). -/
structure Order where
  id : Nat
  symbol : String
  order_type : OrderType
  side : Side
  quantity : ℚ
  price : Option ℚ := none
  trigger_price : Option ℚ := none
  trigger_type : Option String := none
deriving DecidableEq, Repr

/-- `src/models.py` class `Trade`.  Note: the pydantic model declares NO
`maker_fee` / `taker_fee` fields; `timestamp` is not modelled. -/
structure Trade where
  trade_id : Nat
  symbol : String
  price : ℚ
  quantity : ℚ
  aggressor_side : Side
  maker_order_id : Nat
  taker_order_id : Nat
deriving DecidableEq, Repr

/-- `src/engine.py:11-12`: `round(price, 2)`. -/
def normalize_price (p : ℚ) : ℚ := (round (p * 100) : ℤ) / 100

/-- The value Python reads from `order.price`.  Admission
(`src/main.py:117`) rejects non-market orders with `price is None`, and
the engine never reads the price of a market order, so the default for
`none` is never observable on admitted orders. -/
def priceQ (o : Order) : ℚ := o.price.getD 0

/-- `src/engine.py:15-31` class `PriceLevel`. -/
structure PriceLevel where
  price : ℚ
  orders : List Order
  total_quantity : ℚ
deriving DecidableEq, Repr

/-- `PriceLevel.__init__` (`src/engine.py:16-19`). -/
def PriceLevel.init (price : ℚ) : PriceLevel :=
  { price := normalize_price price, orders := [], total_quantity := 0 }

/-- `PriceLevel.add_order` (`src/engine.py:21-23`): append, aggregate += quantity. -/
def PriceLevel.add_order (lv : PriceLevel) (o : Order) : PriceLevel :=
  { lv with orders := lv.orders ++ [o],
            total_quantity := lv.total_quantity + o.quantity }

/-- `PriceLevel.remove_order` (`src/engine.py:25-28`): if present, aggregate -=
(current) quantity and remove the first equal element. -/
def PriceLevel.remove_order (lv : PriceLevel) (o : Order) : PriceLevel :=
  if o ∈ lv.orders then
    { lv with total_quantity := lv.total_quantity - o.quantity,
              orders := lv.orders.erase o }
  else lv

/-- `PriceLevel.is_empty` (`src/engine.py:30-31`). -/
def PriceLevel.is_empty (lv : PriceLevel) : Bool := lv.orders.isEmpty

/-- A Python `Dict[float, PriceLevel]` in insertion order. -/
abbrev SideDict := List (ℚ × PriceLevel)

/-- `src/engine.py:34-39` class `OrderBook`; `orders` is the id index
`self.orders : Dict[str, Order]`, which aliases the same mutable `Order`
objects that sit in the levels. -/
structure OrderBook where
  bids : SideDict
  asks : SideDict
  orders : List (Nat × Order)
deriving DecidableEq, Repr

def opp : Side → Side
  | .buy => .sell
  | .sell => .buy

/-- `book = self.bids if side == "buy" else self.asks`. -/
def bookSide (b : OrderBook) : Side → SideDict
  | .buy => b.bids
  | .sell => b.asks

def setSide (b : OrderBook) : Side → SideDict → OrderBook
  | .buy, d => { b with bids := d }
  | .sell, d => { b with asks := d }

def dictKeys (d : SideDict) : List ℚ := d.map (·.1)

/-- In-place mutation of the level stored under key `k` (dict entry update). -/
def replaceVal (d : SideDict) (k : ℚ) (v : PriceLevel) : SideDict :=
  d.map (fun e => if e.1 == k then (e.1, v) else e)

def levelAt (b : OrderBook) (s : Side) (k : ℚ) : Option PriceLevel :=
  ((bookSide b s).find? (fun e => e.1 == k)).map (·.2)

/-- `OrderBook.add_order` (`src/engine.py:41-48`): index the order, create the
level if absent, append to it.  Assigning `self.orders[str(id)] = order` is
dict update-or-add; representation order of the index is immaterial. -/
def OrderBook.add_order (b : OrderBook) (o : Order) : OrderBook :=
  let price_key := normalize_price (priceQ o)
  let d := bookSide b o.side
  let d0 := if d.any (fun e => e.1 == price_key) then d
            else d ++ [(price_key, PriceLevel.init price_key)]
  let d1 := d0.map (fun e => if e.1 == price_key then (e.1, e.2.add_order o) else e)
  { setSide b o.side d1 with orders := (o.id, o) :: b.orders.eraseP (fun e => e.1 == o.id) }

/-- `OrderBook.remove_order` (`src/engine.py:50-58`): if the key is present,
remove the order from the level (in place), drop the level if it became
empty; pop the id index (no error if absent). -/
def OrderBook.remove_order (b : OrderBook) (o : Order) : OrderBook :=
  let price_key := normalize_price (priceQ o)
  let d := bookSide b o.side
  let d1 :=
    match d.find? (fun e => e.1 == price_key) with
    | some e =>
      let lv := e.2.remove_order o
      if lv.is_empty then d.eraseP (fun e2 => e2.1 == price_key)
      else replaceVal d price_key lv
    | none => d
  { setSide b o.side d1 with orders := b.orders.eraseP (fun e => e.1 == o.id) }

/-- Replace the first occurrence of `a` (value equality, as Python's `is`/`==`
on the shared object) by `c`. -/
def replaceFirst : List Order → Order → Order → List Order
  | [], _, _ => []
  | x :: xs, a, c => if x = a then c :: xs else x :: replaceFirst xs a c

/-- `resting_order.quantity -= traded_qty` (`src/engine.py:148`) mutates the
shared `Order` object in place; the object is reachable from the level where
`add_order` put it (the `r.side` dict at key `normalize_price(r.price)`) and
from the id index, so the update is visible at both places. -/
def mutateResting (b : OrderBook) (r rNew : Order) : OrderBook :=
  let k := normalize_price (priceQ r)
  let d := (bookSide b r.side).map
    (fun e => if e.1 == k then (e.1, { e.2 with orders := replaceFirst e.2.orders r rNew }) else e)
  { setSide b r.side d with orders := b.orders.map (fun e => if e.1 == r.id then (e.1, rNew) else e) }

/-- Python `max(iterable)` over dict keys. -/
def maxKey : List ℚ → Option ℚ
  | [] => none
  | k :: ks => match maxKey ks with | none => some k | some m => some (max k m)

/-- Python `min(iterable)` over dict keys. -/
def minKey : List ℚ → Option ℚ
  | [] => none
  | k :: ks => match minKey ks with | none => some k | some m => some (min k m)

/-- `OrderBook.get_best_bid` (`src/engine.py:60-61`). -/
def OrderBook.get_best_bid (b : OrderBook) : Option ℚ := maxKey (dictKeys b.bids)

/-- `OrderBook.get_best_ask` (`src/engine.py:63-64`). -/
def OrderBook.get_best_ask (b : OrderBook) : Option ℚ := minKey (dictKeys b.asks)

/-- `src/trade_log.py:17`. -/
def MAKER_FEE_RATE : ℚ := 5 / 10000

/-- `src/trade_log.py:18`. -/
def TAKER_FEE_RATE : ℚ := 1 / 1000

/-- Python `round(x, 4)` on ℚ (tie rule immaterial here). -/
def pyRound4 (x : ℚ) : ℚ := (round (x * 10000) : ℤ) / 10000

/-- The pydantic constructor call `Trade(..., maker_fee=..., taker_fee=...)`
(`src/trade_log.py:26-35`).  `models.Trade` declares no `maker_fee` /
`taker_fee` fields and pydantic silently ignores unknown constructor
keywords, so the two fee arguments are discarded. -/
def mkTradeModel (tid : Nat) (symbol : String) (price quantity : ℚ) (aggressor_side : Side)
    (maker_order_id taker_order_id : Nat) (maker_fee taker_fee : ℚ) : Trade :=
  { trade_id := tid, symbol := symbol, price := price, quantity := quantity,
    aggressor_side := aggressor_side, maker_order_id := maker_order_id,
    taker_order_id := taker_order_id }

/-- `log_trade` (`src/trade_log.py:20-48`): compute the fees, build the
`Trade`, append it to the histories and the file.  The returned record is
what matters to the engine; `tid` models the fresh `uuid4()` trade id. -/
def log_trade (tid : Nat) (symbol : String) (price quantity : ℚ) (aggressor_side : Side)
    (maker_order_id taker_order_id : Nat) : Trade :=
  let taker_fee := pyRound4 (price * quantity * TAKER_FEE_RATE)
  let maker_fee := pyRound4 (price * quantity * MAKER_FEE_RATE)
  mkTradeModel tid symbol price quantity aggressor_side maker_order_id taker_order_id
    maker_fee taker_fee

/-- Result of the inner resting-order loop of `_match_order`. -/
structure SweepRes where
  trades : List Trade
  book : OrderBook
  q : ℚ
  tid : Nat
deriving Repr

/-- The inner loop `for resting_order in level.orders[:]` of `_match_order`
(`src/engine.py:142-161`): iterate over a copy of the level's list; stop when
the incoming quantity is exhausted; otherwise trade `min` of the two
quantities, decrement both (in place for the resting object), log the trade,
and remove the resting order from the book when its quantity reached 0. -/
def sweepOrders (taker : Order) (price : ℚ) :
    OrderBook → ℚ → Nat → List Order → SweepRes
  | b, q, tid, [] => ⟨[], b, q, tid⟩
  | b, q, tid, r :: rest =>
    if q ≤ 0 then ⟨[], b, q, tid⟩
    else
      let traded := min q r.quantity
      let rNew := { r with quantity := r.quantity - traded }
      let b1 := mutateResting b r rNew
      let t := log_trade tid taker.symbol price traded taker.side r.id taker.id
      let b2 := if rNew.quantity ≤ 0 then b1.remove_order rNew else b1
      let res := sweepOrders taker price b2 (q - traded) (tid + 1) rest
      ⟨t :: res.trades, res.book, res.q, res.tid⟩

/-- Result of a matching pass.  `crashed = true` models the `KeyError`
raised by `del opposite_book[price]` (`src/engine.py:164`) when
`OrderBook.remove_order` already deleted the emptied levelnote
the exception propagates out of `process_order`, leaving the book in the
state recorded in `book`. -/
structure LoopRes where
  trades : List Trade
  book : OrderBook
  q : ℚ
  crashed : Bool
  tid : Nat
deriving Repr

/-- The outer loop `for price in price_levels` of `_match_order`
(`src/engine.py:134-167`): price check (limit orders only), fetch the level
(`opposite_book[price]` raises on a missing key), sweep its order list,
then `if level.is_empty(): del opposite_book[price]` — the `level` object
aliases the book's level, and if `remove_order` emptied it the key is
already gone, so the `del` raises `KeyError`. -/
def matchLoop (taker : Order) (market : Bool) :
    OrderBook → ℚ → Nat → List ℚ → LoopRes
  | b, q, tid, [] => ⟨[], b, q, false, tid⟩
  | b, q, tid, price :: rest =>
    if market = false ∧
       ((taker.side = .buy ∧ normalize_price (priceQ taker) < price) ∨
        (taker.side = .sell ∧ price < normalize_price (priceQ taker))) then
      ⟨[], b, q, false, tid⟩
    else
      match (bookSide b (opp taker.side)).find? (fun e => e.1 == price) with
      | none => ⟨[], b, q, true, tid⟩
      | some e =>
        let s := sweepOrders taker price b q tid e.2.orders
        let objOrders :=
          match (bookSide s.book (opp taker.side)).find? (fun e2 => e2.1 == price) with
          | some e2 => e2.2.orders
          | none => []
        if objOrders.isEmpty then
          if (bookSide s.book (opp taker.side)).any (fun e2 => e2.1 == price) then
            let b2 := setSide s.book (opp taker.side)
              ((bookSide s.book (opp taker.side)).eraseP (fun e2 => e2.1 == price))
            if s.q ≤ 0 then ⟨s.trades, b2, s.q, false, s.tid⟩
            else
              let res := matchLoop taker market b2 s.q s.tid rest
              ⟨s.trades ++ res.trades, res.book, res.q, res.crashed, res.tid⟩
          else ⟨s.trades, s.book, s.q, true, s.tid⟩
        else
          if s.q ≤ 0 then ⟨s.trades, s.book, s.q, false, s.tid⟩
          else
            let res := matchLoop taker market s.book s.q s.tid rest
            ⟨s.trades ++ res.trades, res.book, res.q, res.crashed, res.tid⟩

/-- Python `sorted(keys)`. -/
def sortAsc (l : List ℚ) : List ℚ := l.insertionSort (· ≤ ·)

/-- Python `sorted(keys, reverse=True)`. -/
def sortDesc (l : List ℚ) : List ℚ := (sortAsc l).reverse

/-- `MatchingEngine._match_order` (`src/engine.py:128-169`). -/
def match_order (b : OrderBook) (taker : Order) (market : Bool) (tid : Nat) : LoopRes :=
  let keys := dictKeys (bookSide b (opp taker.side))
  let prices := match taker.side with
    | .buy => sortAsc keys
    | .sell => sortDesc keys
  matchLoop taker market b taker.quantity tid prices

/-- Loop body of `_can_fully_fill` (`src/engine.py:103-117`); the dict is not
mutated during the loop, so the key lookups always succeed (`none` branch is
unreachable, kept for totality). -/
def canFillLoop (b : OrderBook) (o : Order) (price_key : ℚ) :
    ℚ → List ℚ → Bool
  | _, [] => false
  | total, p :: rest =>
    if (o.side = .buy ∧ price_key < p) ∨ (o.side = .sell ∧ p < price_key) then false
    else
      match (bookSide b (opp o.side)).find? (fun e => e.1 == p) with
      | none => false
      | some e =>
        let total2 := total + e.2.total_quantity
        if o.quantity ≤ total2 then true else canFillLoop b o price_key total2 rest

/-- `MatchingEngine._can_fully_fill` (`src/engine.py:99-117`): walk the
opposite levels best-first under the price constraint, summing the levels'
STORED aggregate quantities, until the incoming quantity is covered. -/
def can_fully_fill (b : OrderBook) (o : Order) : Bool :=
  let price_key := normalize_price (priceQ o)
  let prices := match o.side with
    | .buy => sortAsc (dictKeys b.asks)
    | .sell => sortDesc (dictKeys b.bids)
  canFillLoop b o price_key 0 prices

/-- `MatchingEngine._execute_limit_order` (`src/engine.py:122-126`): match,
then rest the residual (the mutated incoming order) unless IOC.  A raised
`KeyError` propagates before the rest step. -/
def execute_limit_order (b : OrderBook) (o : Order) (ioc : Bool) (tid : Nat) : LoopRes :=
  let res := match_order b o false tid
  if res.crashed then res
  else if 0 < res.q ∧ ioc = false then
    { res with book := res.book.add_order { o with quantity := res.q } }
  else res

/-- `MatchingEngine._execute_market_order` (`src/engine.py:119-120`). -/
def execute_market_order (b : OrderBook) (o : Order) (tid : Nat) : LoopRes :=
  match_order b o true tid

/-- `MatchingEngine.process_order` (`src/engine.py:83-97`) on the book of the
order's symbol. -/
def process_order (b : OrderBook) (o : Order) (tid : Nat) : LoopRes :=
  match o.order_type with
  | .market => execute_market_order b o tid
  | .limit => execute_limit_order b o false tid
  | .ioc => execute_limit_order b o true tid
  | .fok =>
    if can_fully_fill b o then execute_limit_order b o false tid
    else ⟨[], b, o.quantity, false, tid⟩

/-- The two values `MatchingEngine.cancel_order` can actually return:
`False` (line 197), or the value of `book.remove_order(order)` — and
`OrderBook.remove_order` has no return statement, so that value is `None`
(line 199), despite the `-> bool` annotation. -/
inductive PyCancelRet
  | pyFalse
  | pyNone
deriving DecidableEq, Repr

/-- `MatchingEngine.cancel_order` (`src/engine.py:194-199`).  `book` is
`self.order_books.get(symbol)` (`none` when the symbol has no book). -/
def cancel_order (book : Option OrderBook) (order_id : Nat) : PyCancelRet × Option OrderBook :=
  match book with
  | none => (.pyFalse, none)
  | some b =>
    match b.orders.find? (fun e => e.1 == order_id) with
    | none => (.pyFalse, some b)
    | some e => (.pyNone, some (b.remove_order e.2))

def emptyBook : OrderBook := ⟨[], [], []⟩

/-- One operation admitted through the engine facade. -/
inductive EngineOp
  | submit (o : Order)
  | cancel (oid : Nat)

def runOp : OrderBook × Nat → EngineOp → OrderBook × Nat
  | (b, tid), .submit o => ((process_order b o tid).book, (process_order b o tid).tid)
  | (b, tid), .cancel oid => ((cancel_order (some b) oid).2.getD b, tid)

/-- The book state after a sequence of admitted operations on a fresh book. -/
def runOps (ops : List EngineOp) : OrderBook × Nat := ops.foldl runOp (emptyBook, 0)

/-- Python truthiness of `order.trigger_price` (`None` and `0.0` are falsy). -/
def pyTruthyOptQ : Option ℚ → Bool
  | none => false
  | some x => !(x == 0)

/-- Python truthiness of `order.trigger_type` (`None` and `""` are falsy). -/
def pyTruthyOptS : Option String → Bool
  | none => false
  | some s => !(s == "")

/-- `should_trigger` (`src/stop_orders.py:25-50`), evaluated against the BBO
`{"bid": bid, "ask": ask}` the monitor fetched from the engine. -/
def should_trigger (o : Order) (bid ask : Option ℚ) : Bool :=
  if pyTruthyOptQ o.trigger_price = false ∨ pyTruthyOptS o.trigger_type = false then false
  else
    let tp := o.trigger_price.getD 0
    let tt := o.trigger_type.getD ""
    if tt == "stop_loss" then
      if o.side == .sell && (match bid with | some v => decide (v ≤ tp) | none => false) then true
      else if o.side == .buy && (match ask with | some v => decide (tp ≤ v) | none => false) then true
      else false
    else if tt == "take_profit" then
      if o.side == .sell && (match bid with | some v => decide (tp ≤ v) | none => false) then true
      else if o.side == .buy && (match ask with | some v => decide (v ≤ tp) | none => false) then true
      else false
    else if tt == "stop_limit" then
      if o.side == .buy && (match ask with | some v => decide (tp ≤ v) | none => false) then true
      else if o.side == .sell && (match bid with | some v => decide (v ≤ tp) | none => false) then true
      else false
    else false

/-- Modelled from the spec: the trigger table of §4.5 (buy: stop_loss /
stop_limit fire when ask ≥ trigger, take_profit when ask ≤ trigger; sell:
stop_loss / stop_limit when bid ≤ trigger, take_profit when bid ≥ trigger;
an absent BBO side never triggers). -/
def trigger_table (tt : String) (s : Side) (bid ask : Option ℚ) (tp : ℚ) : Prop :=
  match s with
  | .buy =>
    if tt = "take_profit" then (match ask with | some a => a ≤ tp | none => False)
    else (match ask with | some a => tp ≤ a | none => False)
  | .sell =>
    if tt = "take_profit" then (match bid with | some v => tp ≤ v | none => False)
    else (match bid with | some v => v ≤ tp | none => False)

/-- `deque(maxlen=1000)` append (`src/trade_log.py:13`): evict from the left
when over capacity. -/
def dequeAppend (cap : Nat) (dq : List Trade) (t : Trade) : List Trade :=
  let dq2 := dq ++ [t]
  dq2.drop (dq2.length - cap)

/-- `get_recent_trades` (`src/trade_log.py:50-54`) on the deque stored for the
symbol: `list(dq)[-limit:][::-1]`.  Python `[-0:]` is `[0:]`, the whole
list; for `limit ≥ 1`, `[-limit:]` is the last `min(limit, len)` elements. -/
def get_recent_trades (dq : List Trade) (limit : Nat) : List Trade :=
  (if limit == 0 then dq else dq.drop (dq.length - limit)).reverse

/-! ### Pure specifications of the inner matching loop

The trades, the residual quantity and the surviving resting orders produced
by one level sweep depend only on the incoming quantity and the level's
order list; the following functions compute them directly, and are proved
to agree with `sweepOrders`. -/

/-- The trades `sweepOrders` logs. -/
def sweepTrades (taker : Order) (price : ℚ) : ℚ → Nat → List Order → List Trade
  | _, _, [] => []
  | q, tid, r :: rest =>
    if q ≤ 0 then []
    else log_trade tid taker.symbol price (min q r.quantity) taker.side r.id taker.id ::
         sweepTrades taker price (q - min q r.quantity) (tid + 1) rest

/-- The taker quantity left by `sweepOrders`. -/
def sweepQ : ℚ → List Order → ℚ
  | q, [] => q
  | q, r :: rest => if q ≤ 0 then q else sweepQ (q - min q r.quantity) rest

/-- The resting orders surviving `sweepOrders` in the swept level. -/
def sweepRemaining : ℚ → List Order → List Order
  | _, [] => []
  | q, r :: rest =>
    if q ≤ 0 then r :: rest
    else if r.quantity ≤ q then sweepRemaining (q - r.quantity) rest
    else { r with quantity := r.quantity - q } :: rest

/-- Best-price-first concatenation of the opposite side's resting orders:
the order in which price-time priority says liquidity must be consumed when
`taker` arrives (levels best-first, each level in arrival order, since
`PriceLevel.add_order` appends). -/
def levelOrdersAt (d : SideDict) (k : ℚ) : List Order :=
  match d.find? (fun e => e.1 == k) with
  | some e => e.2.orders
  | none => []

def priorityOrders (b : OrderBook) (taker : Order) : List Order :=
  let d := bookSide b (opp taker.side)
  let prices := match taker.side with
    | .buy => sortAsc (dictKeys d)
    | .sell => sortDesc (dictKeys d)
  (prices.map (levelOrdersAt d)).flatten

/-- True when an order with the given id is resting in some price level. -/
def hasOrderId (d : SideDict) (oid : Nat) : Bool :=
  d.any (fun e => e.2.orders.any (fun r => r.id == oid))

def restsIn (b : OrderBook) (oid : Nat) : Bool :=
  hasOrderId b.bids oid || hasOrderId b.asks oid

/-! ### Book invariants -/

/-- A live price level: non-empty, and every resting order in it is on the
level's side, has the level's dict key as its canonical price, and has
strictly positive remaining quantity. -/
def GoodLevel (s : Side) (k : ℚ) (lv : PriceLevel) : Prop :=
  lv.orders ≠ [] ∧
  ∀ o ∈ lv.orders, o.side = s ∧ normalize_price (priceQ o) = k ∧ 0 < o.quantity

/-- A well-formed side dict: distinct keys, every level live. -/
def GoodSide (s : Side) (d : SideDict) : Prop :=
  (d.map (·.1)).Nodup ∧ ∀ e ∈ d, GoodLevel s e.1 e.2

/-- Uncrossed book: every bid key is strictly below every ask key
(equivalently, best_bid < best_ask when both exist). -/
def NoCross (b : OrderBook) : Prop :=
  ∀ e ∈ b.bids, ∀ e2 ∈ b.asks, e.1 < e2.1

def Inv (b : OrderBook) : Prop :=
  GoodSide .buy b.bids ∧ GoodSide .sell b.asks ∧ NoCross b

instance : DecidablePred (fun b => Inv b) := fun b => by
  unfold Inv GoodSide GoodLevel NoCross
  infer_instance

/-- Default values used only as `List.getD` fallbacks in statements. -/
def someTrade : Trade := ⟨0, "", 0, 0, .buy, 0, 0⟩

def someOrder : Order := ⟨0, "", .limit, .buy, 0, none, none, none⟩

/-- Concrete orders for the counterexample scenarios (symbol "S"). -/
def limO (i : Nat) (s : Side) (q p : ℚ) : Order :=
  { id := i, symbol := "S", order_type := .limit, side := s, quantity := q, price := some p }

def fokO (i : Nat) (s : Side) (q p : ℚ) : Order :=
  { id := i, symbol := "S", order_type := .fok, side := s, quantity := q, price := some p }

def iocO (i : Nat) (s : Side) (q p : ℚ) : Order :=
  { id := i, symbol := "S", order_type := .ioc, side := s, quantity := q, price := some p }

/-- A pending conditional order (underlying market order), as accepted by
`submit_stop_order` (`src/main.py:413-422`). -/
def stopO (s : Side) (tt : String) (tp : ℚ) : Order :=
  { id := 9, symbol := "S", order_type := .market, side := s, quantity := 1,
    trigger_price := some tp, trigger_type := some tt }

def sampleTrade (n : Nat) : Trade :=
  { trade_id := n, symbol := "S", price := 1, quantity := 1, aggressor_side := .buy,
    maker_order_id := 0, taker_order_id := 0 }

/-- Two sells of 5 at 100, then a buy of 5 at 100: the first maker is fully
consumed, so the level's stored aggregate goes stale. -/
def opsC1 : List EngineOp :=
  [.submit (limO 1 .sell 5 100), .submit (limO 2 .sell 5 100), .submit (limO 3 .buy 5 100)]

/-- A resting sell of 5 at 100 partially filled by a buy of 3: 2 remain on
the book but the level's `total_quantity` still reads 5. -/
def bookC2 : OrderBook :=
  (runOps [.submit (limO 1 .sell 5 100), .submit (limO 2 .buy 3 100)]).1

def fokC2 : Order := fokO 3 .buy 4 100

def resC2 : LoopRes := process_order bookC2 fokC2 1

/-- A bid at 99 and an ask at 101 rest without crossing. -/
def opsC3 : List EngineOp := [.submit (limO 1 .buy 1 99), .submit (limO 2 .sell 1 101)]

/-- One resting sell of 5 at 100. -/
def oneAskBook : OrderBook := (runOps [.submit (limO 1 .sell 5 100)]).1

/-- Two resting sells of 2 at 100 in arrival order. -/
def twoAskBook : OrderBook :=
  (runOps [.submit (limO 1 .sell 2 100), .submit (limO 2 .sell 2 100)]).1

def dqSample : List Trade := [sampleTrade 1, sampleTrade 2, sampleTrade 3]

/-! ### Lemmas about the pure sweep specifications -/

theorem sweepTrades_nonpos (taker : Order) (price q : ℚ) (tid : Nat)
    (copy : List Order) (h : q ≤ 0) : sweepTrades taker price q tid copy = [] := by
  cases copy <;> simp [sweepTrades, h]

theorem sweepQ_nonpos (q : ℚ) (copy : List Order) (h : q ≤ 0) : sweepQ q copy = q := by
  cases copy <;> simp [sweepQ, h]

theorem sweepRemaining_nonpos (q : ℚ) (copy : List Order) (h : q ≤ 0)
    (h2 : copy ≠ []) : sweepRemaining q copy = copy := by
  cases copy with
  | nil => simp at h2
  | cons r rest => simp [sweepRemaining, h]

theorem sweepRemaining_of_pos (copy : List Order) :
    ∀ q : ℚ, 0 < q → (∀ r ∈ copy, 0 < r.quantity) → 0 < sweepQ q copy →
    sweepRemaining q copy = [] := by
  induction copy with
  | nil => intro q _ _ _; rfl
  | cons r rest ih =>
    intro q hq hpos hsq
    have hq' : ¬ q ≤ 0 := not_le.mpr hq
    simp only [sweepRemaining, sweepQ, hq', if_false] at *
    by_cases hr : r.quantity ≤ q
    · have hmin : min q r.quantity = r.quantity := min_eq_right hr
      rw [hmin] at hsq
      simp only [hr, if_true]
      by_cases hz : 0 < q - r.quantity
      · exact ih _ hz (fun x hx => hpos x (List.mem_cons_of_mem _ hx)) hsq
      · rw [sweepQ_nonpos _ _ (not_lt.mp hz)] at hsq
        exact absurd hsq hz
    · have hmin : min q r.quantity = q := min_eq_left (le_of_lt (not_le.mp hr))
      rw [hmin, sub_self, sweepQ_nonpos _ _ (le_refl 0)] at hsq
      exact absurd hsq (lt_irrefl 0)

theorem sweepRemaining_mem (copy : List Order) :
    ∀ (q : ℚ) (o : Order), o ∈ sweepRemaining q copy →
    ∃ r ∈ copy, o.id = r.id ∧ o.side = r.side ∧ o.price = r.price := by
  induction copy with
  | nil => intro q o h; simp [sweepRemaining] at h
  | cons r rest ih =>
    intro q o h
    by_cases hq : q ≤ 0
    · rw [sweepRemaining_nonpos _ _ hq (by simp)] at h
      exact ⟨o, h, rfl, rfl, rfl⟩
    · simp only [sweepRemaining, hq, if_false] at h
      by_cases hr : r.quantity ≤ q
      · rw [if_pos hr] at h
        obtain ⟨x, hx, hprops⟩ := ih _ o h
        exact ⟨x, List.mem_cons_of_mem _ hx, hprops⟩
      · rw [if_neg hr] at h
        rcases List.mem_cons.mp h with h1 | h1
        · exact ⟨r, List.mem_cons_self _ _, by simp [h1]⟩
        · exact ⟨o, List.mem_cons_of_mem _ h1, rfl, rfl, rfl⟩

theorem sweepRemaining_pos (copy : List Order) :
    ∀ q : ℚ, (∀ r ∈ copy, 0 < r.quantity) →
    ∀ o ∈ sweepRemaining q copy, 0 < o.quantity := by
  induction copy with
  | nil => intro q _ o h; simp [sweepRemaining] at h
  | cons r rest ih =>
    intro q hpos o h
    by_cases hq : q ≤ 0
    · rw [sweepRemaining_nonpos _ _ hq (by simp)] at h
      exact hpos o h
    · simp only [sweepRemaining, hq, if_false] at h
      by_cases hr : r.quantity ≤ q
      · rw [if_pos hr] at h
        exact ih _ (fun x hx => hpos x (List.mem_cons_of_mem _ hx)) o h
      · rw [if_neg hr] at h
        rcases List.mem_cons.mp h with h1 | h1
        · rw [h1]; simpa using sub_pos.mpr (not_le.mp hr)
        · exact hpos o (List.mem_cons_of_mem _ h1)

theorem log_trade_fields (tid : Nat) (symbol : String) (price quantity : ℚ)
    (s : Side) (m t : Nat) :
    (log_trade tid symbol price quantity s m t).symbol = symbol ∧
    (log_trade tid symbol price quantity s m t).price = price ∧
    (log_trade tid symbol price quantity s m t).quantity = quantity ∧
    (log_trade tid symbol price quantity s m t).aggressor_side = s ∧
    (log_trade tid symbol price quantity s m t).maker_order_id = m ∧
    (log_trade tid symbol price quantity s m t).taker_order_id = t := by
  simp [log_trade, mkTradeModel]

theorem sweepTrades_mem (taker : Order) (price : ℚ) (copy : List Order) :
    ∀ (q : ℚ) (tid : Nat) (t : Trade), t ∈ sweepTrades taker price q tid copy →
    t.symbol = taker.symbol ∧ t.price = price ∧ t.aggressor_side = taker.side ∧
    t.taker_order_id = taker.id ∧ ∃ r ∈ copy, t.maker_order_id = r.id := by
  induction copy with
  | nil => intro q tid t h; simp [sweepTrades] at h
  | cons r rest ih =>
    intro q tid t h
    by_cases hq : q ≤ 0
    · rw [sweepTrades_nonpos _ _ _ _ _ hq] at h; simp at h
    · simp only [sweepTrades, hq, if_false, List.mem_cons] at h
      rcases h with h1 | h1
      · rw [h1]
        refine ⟨?_, ?_, ?_, ?_, r, List.mem_cons_self _ _, ?_⟩ <;>
          simp [log_trade, mkTradeModel]
      · obtain ⟨h2, h3, h4, h5, x, hx, h6⟩ := ih _ _ t h1
        exact ⟨h2, h3, h4, h5, x, List.mem_cons_of_mem _ hx, h6⟩

theorem sweepTrades_length_le (taker : Order) (price : ℚ) (copy : List Order) :
    ∀ (q : ℚ) (tid : Nat), (sweepTrades taker price q tid copy).length ≤ copy.length := by
  induction copy with
  | nil => intro q tid; simp [sweepTrades]
  | cons r rest ih =>
    intro q tid
    by_cases hq : q ≤ 0
    · rw [sweepTrades_nonpos _ _ _ _ _ hq]; simp
    · simp only [sweepTrades, hq, if_false, List.length_cons]
      exact Nat.succ_le_succ (ih _ _)

theorem sweepTrades_maker_prefix (taker : Order) (price : ℚ) (copy : List Order) :
    ∀ (q : ℚ) (tid : Nat),
    (sweepTrades taker price q tid copy).map (·.maker_order_id) =
      (copy.take (sweepTrades taker price q tid copy).length).map (·.id) := by
  induction copy with
  | nil => intro q tid; simp [sweepTrades]
  | cons r rest ih =>
    intro q tid
    by_cases hq : q ≤ 0
    · rw [sweepTrades_nonpos _ _ _ _ _ hq]; simp
    · have hunf : sweepTrades taker price q tid (r :: rest) =
          log_trade tid taker.symbol price (min q r.quantity) taker.side r.id taker.id ::
          sweepTrades taker price (q - min q r.quantity) (tid + 1) rest := by
        simp [sweepTrades, hq]
      rw [hunf, List.length_cons, List.take_succ_cons, List.map_cons, List.map_cons, ih _ _]
      simp [log_trade, mkTradeModel]

theorem sweepTrades_full_prefix (taker : Order) (price : ℚ) (copy : List Order) :
    ∀ (q : ℚ) (tid : Nat) (i : Nat),
    i + 1 < (sweepTrades taker price q tid copy).length →
    ((sweepTrades taker price q tid copy).getD i someTrade).quantity =
      (copy.getD i someOrder).quantity := by
  induction copy with
  | nil => intro q tid i h; simp [sweepTrades] at h
  | cons r rest ih =>
    intro q tid i h
    by_cases hq : q ≤ 0
    · rw [sweepTrades_nonpos _ _ _ _ _ hq] at h; simp at h
    · simp only [sweepTrades, hq, if_false, List.length_cons] at h ⊢
      cases i with
      | zero =>
        have hne : sweepTrades taker price (q - min q r.quantity) (tid + 1) rest ≠ [] := by
          intro hnil
          rw [hnil] at h
          simp at h
        have hpos2 : ¬ (q - min q r.quantity ≤ 0) := by
          intro hle
          exact hne (sweepTrades_nonpos _ _ _ _ _ hle)
        have hmin : min q r.quantity = r.quantity := by
          rcases min_cases q r.quantity with ⟨h1, _⟩ | ⟨h1, _⟩
          · exfalso; apply hpos2; rw [h1]; simp
          · exact h1
        simp [log_trade, mkTradeModel, hmin]
      | succ j =>
        have h2 : j + 1 < (sweepTrades taker price (q - min q r.quantity) (tid + 1) rest).length := by
          omega
        simpa using ih _ _ j h2

/-! ### Association-list (Python dict) lemmas -/

theorem replaceVal_keys (d : SideDict) (k : ℚ) (v : PriceLevel) :
    (replaceVal d k v).map (·.1) = d.map (·.1) := by
  rw [replaceVal, List.map_map]
  apply List.map_congr_left
  intro e _
  simp only [Function.comp]
  by_cases h : (e.1 == k) = true
  · rw [if_pos h]
  · rw [if_neg h]

theorem replaceVal_not_mem (d : SideDict) (k : ℚ) (v : PriceLevel)
    (h : k ∉ d.map (·.1)) : replaceVal d k v = d := by
  induction d with
  | nil => rfl
  | cons a t ih =>
    simp only [List.map_cons, List.mem_cons] at h
    push_neg at h
    have ha : ¬ ((a.1 == k) = true) := by
      simp only [beq_iff_eq]
      exact fun he => h.1 he.symm
    rw [replaceVal, List.map_cons, if_neg ha]
    rw [show List.map (fun e => if e.1 == k then (e.1, v) else e) t = replaceVal t k v from rfl]
    rw [ih h.2]

theorem find?_replaceVal_self (d : SideDict) (k : ℚ) (v : PriceLevel) :
    (replaceVal d k v).find? (fun e => e.1 == k) =
      (d.find? (fun e => e.1 == k)).map (fun _ => (k, v)) := by
  induction d with
  | nil => rfl
  | cons a t ih =>
    rw [replaceVal, List.map_cons]
    by_cases h : (a.1 == k) = true
    · have hk : a.1 = k := beq_iff_eq.mp h
      have h' : (((a.1, v) : ℚ × PriceLevel).1 == k) = true := h
      rw [if_pos h]
      simp only [List.find?, h', h]
      simp [hk]
    · have hf : (a.1 == k) = false := by simp only [Bool.not_eq_true] at h; exact h
      have hf' : (((a.1, v) : ℚ × PriceLevel).1 == k) = false := hf
      rw [if_neg h]
      simp only [List.find?, hf', hf]
      exact ih

theorem find?_replaceVal_ne (d : SideDict) (k k2 : ℚ) (v : PriceLevel)
    (h : k2 ≠ k) :
    (replaceVal d k v).find? (fun e => e.1 == k2) = d.find? (fun e => e.1 == k2) := by
  induction d with
  | nil => rfl
  | cons a t ih =>
    rw [replaceVal, List.map_cons]
    by_cases h1 : (a.1 == k) = true
    · have hk : a.1 = k := beq_iff_eq.mp h1
      have h3 : (a.1 == k2) = false := by
        simp only [beq_eq_false_iff_ne, hk]
        exact fun he => h he.symm
      have h3' : (((a.1, v) : ℚ × PriceLevel).1 == k2) = false := h3
      rw [if_pos h1]
      simp only [List.find?, h3', h3]
      exact ih
    · rw [if_neg h1]
      by_cases h2 : (a.1 == k2) = true
      · simp only [List.find?, h2]
      · have hf : (a.1 == k2) = false := by simp only [Bool.not_eq_true] at h2; exact h2
        simp only [List.find?, hf]
        exact ih

theorem replaceVal_replaceVal (d : SideDict) (k : ℚ) (v w : PriceLevel) :
    replaceVal (replaceVal d k v) k w = replaceVal d k w := by
  rw [replaceVal, replaceVal, replaceVal, List.map_map]
  apply List.map_congr_left
  intro e _
  simp only [Function.comp]
  by_cases h : (e.1 == k) = true
  · have h' : (((e.1, v) : ℚ × PriceLevel).1 == k) = true := h
    simp only [if_pos h, if_pos h']
  · simp only [if_neg h]

theorem replaceVal_self (d : SideDict) (k : ℚ) (e : ℚ × PriceLevel)
    (hn : (d.map (·.1)).Nodup) (hf : d.find? (fun x => x.1 == k) = some e) :
    replaceVal d k e.2 = d := by
  induction d with
  | nil => simp [List.find?] at hf
  | cons a t ih =>
    simp only [List.map_cons, List.nodup_cons] at hn
    rw [replaceVal, List.map_cons]
    by_cases h : (a.1 == k) = true
    · have hk : a.1 = k := beq_iff_eq.mp h
      simp only [List.find?, h] at hf
      have hea : e = a := by injection hf with h2; exact h2.symm
      have hnm : k ∉ t.map (·.1) := hk ▸ hn.1
      rw [if_pos h, hea]
      rw [show List.map (fun x => if x.1 == k then (x.1, a.2) else x) t = replaceVal t k a.2 from rfl]
      rw [replaceVal_not_mem t k a.2 hnm]
    · have hfb : (a.1 == k) = false := by simp only [Bool.not_eq_true] at h; exact h
      simp only [List.find?, hfb] at hf
      rw [if_neg h]
      rw [show List.map (fun x => if x.1 == k then (x.1, e.2) else x) t = replaceVal t k e.2 from rfl]
      rw [ih hn.2 hf]

theorem eraseP_replaceVal (d : SideDict) (k : ℚ) (v : PriceLevel)
    (hn : (d.map (·.1)).Nodup) :
    (replaceVal d k v).eraseP (fun e => e.1 == k) = d.eraseP (fun e => e.1 == k) := by
  induction d with
  | nil => rfl
  | cons a t ih =>
    simp only [List.map_cons, List.nodup_cons] at hn
    rw [replaceVal, List.map_cons]
    by_cases h : (a.1 == k) = true
    · have hk : a.1 = k := beq_iff_eq.mp h
      have h' : (((a.1, v) : ℚ × PriceLevel).1 == k) = true := h
      have hnm : k ∉ t.map (·.1) := hk ▸ hn.1
      rw [if_pos h]
      rw [@List.eraseP_cons_of_pos _ (a.1, v) _ (fun e => e.1 == k) h',
          @List.eraseP_cons_of_pos _ a _ (fun e => e.1 == k) h]
      rw [show List.map (fun e => if e.1 == k then (e.1, v) else e) t = replaceVal t k v from rfl]
      exact replaceVal_not_mem t k v hnm
    · rw [if_neg h]
      rw [@List.eraseP_cons_of_neg _ a _ (fun e => e.1 == k) h,
          @List.eraseP_cons_of_neg _ a _ (fun e => e.1 == k) h]
      rw [show List.map (fun e => if e.1 == k then (e.1, v) else e) t = replaceVal t k v from rfl]
      rw [ih hn.2]

theorem find?_eraseP_self (d : SideDict) (k : ℚ)
    (hn : (d.map (·.1)).Nodup) :
    (d.eraseP (fun e => e.1 == k)).find? (fun e => e.1 == k) = none := by
  induction d with
  | nil => rfl
  | cons a t ih =>
    simp only [List.map_cons, List.nodup_cons] at hn
    by_cases h : (a.1 == k) = true
    · have hk : a.1 = k := beq_iff_eq.mp h
      have hnm : k ∉ t.map (·.1) := hk ▸ hn.1
      rw [@List.eraseP_cons_of_pos _ a _ (fun e => e.1 == k) h]
      rw [List.find?_eq_none]
      intro x hx
      simp only [beq_iff_eq]
      intro hxk
      exact hnm (hxk ▸ List.mem_map_of_mem (·.1) hx)
    · have hfb : (a.1 == k) = false := by simp only [Bool.not_eq_true] at h; exact h
      rw [@List.eraseP_cons_of_neg _ a _ (fun e => e.1 == k) h]
      simp only [List.find?, hfb]
      exact ih hn.2

theorem any_eraseP_self (d : SideDict) (k : ℚ)
    (hn : (d.map (·.1)).Nodup) :
    (d.eraseP (fun e => e.1 == k)).any (fun e => e.1 == k) = false := by
  have h := find?_eraseP_self d k hn
  rw [List.find?_eq_none] at h
  rw [List.any_eq_false]
  exact h

theorem mapIf_not_mem (d : SideDict) (k : ℚ) (f : PriceLevel → PriceLevel)
    (h : k ∉ d.map (·.1)) :
    d.map (fun x => if x.1 == k then (x.1, f x.2) else x) = d := by
  induction d with
  | nil => rfl
  | cons a t ih =>
    simp only [List.map_cons, List.mem_cons] at h
    push_neg at h
    have ha : ¬ ((a.1 == k) = true) := by
      simp only [beq_iff_eq]
      exact fun he => h.1 he.symm
    rw [List.map_cons, if_neg ha, ih h.2]

theorem mapIf_eq_replaceVal (d : SideDict) (k : ℚ) (e : ℚ × PriceLevel)
    (f : PriceLevel → PriceLevel)
    (hn : (d.map (·.1)).Nodup) (hf : d.find? (fun x => x.1 == k) = some e) :
    d.map (fun x => if x.1 == k then (x.1, f x.2) else x) = replaceVal d k (f e.2) := by
  induction d with
  | nil => simp [List.find?] at hf
  | cons a t ih =>
    simp only [List.map_cons, List.nodup_cons] at hn
    rw [List.map_cons, replaceVal, List.map_cons]
    by_cases h : (a.1 == k) = true
    · have hk : a.1 = k := beq_iff_eq.mp h
      simp only [List.find?, h] at hf
      have hea : e = a := by injection hf with h2; exact h2.symm
      have hnm : k ∉ t.map (·.1) := hk ▸ hn.1
      rw [if_pos h, if_pos h, hea]
      rw [mapIf_not_mem t k f hnm]
      rw [show List.map (fun x => if x.1 == k then (x.1, f a.2) else x) t = replaceVal t k (f a.2) from rfl]
      rw [replaceVal_not_mem t k (f a.2) hnm]
    · have hfb : (a.1 == k) = false := by simp only [Bool.not_eq_true] at h; exact h
      simp only [List.find?, hfb] at hf
      rw [if_neg h, if_neg h]
      have := ih hn.2 hf
      rw [replaceVal] at this
      rw [this]

theorem find?_key_of_mem (d : SideDict) (k : ℚ) (e : ℚ × PriceLevel)
    (he : e ∈ d) (hk : e.1 = k) :
    ∃ e2, d.find? (fun x => x.1 == k) = some e2 ∧ e2 ∈ d ∧ e2.1 = k := by
  cases hfind : d.find? (fun x => x.1 == k) with
  | none =>
    rw [List.find?_eq_none] at hfind
    exact absurd (by simpa [beq_iff_eq] using hk) (hfind e he)
  | some e2 =>
    refine ⟨e2, rfl, List.mem_of_find?_eq_some hfind, ?_⟩
    have := List.find?_some hfind
    simpa [beq_iff_eq] using this

theorem entry_unique (d : SideDict) (e e2 : ℚ × PriceLevel)
    (hn : (d.map (·.1)).Nodup) (h1 : e ∈ d) (h2 : e2 ∈ d) (hk : e.1 = e2.1) :
    e = e2 := by
  induction d with
  | nil => simp at h1
  | cons a t ih =>
    simp only [List.map_cons, List.nodup_cons] at hn
    rcases List.mem_cons.mp h1 with he | he <;> rcases List.mem_cons.mp h2 with he2 | he2
    · rw [he, he2]
    · exfalso
      apply hn.1
      rw [he] at hk
      exact hk ▸ List.mem_map_of_mem (·.1) he2
    · exfalso
      apply hn.1
      rw [he2] at hk
      exact hk ▸ List.mem_map_of_mem (·.1) he
    · exact ih hn.2 he he2

theorem mem_replaceVal (d : SideDict) (k : ℚ) (v : PriceLevel) (e2 : ℚ × PriceLevel)
    (h : e2 ∈ replaceVal d k v) :
    ∃ e ∈ d, e2.1 = e.1 ∧ (e2 = e ∨ (e.1 = k ∧ e2 = (e.1, v))) := by
  rw [replaceVal] at h
  obtain ⟨e, he, hfe⟩ := List.mem_map.mp h
  by_cases hk : (e.1 == k) = true
  · rw [if_pos hk] at hfe
    exact ⟨e, he, by rw [← hfe], Or.inr ⟨beq_iff_eq.mp hk, hfe.symm⟩⟩
  · rw [if_neg hk] at hfe
    exact ⟨e, he, by rw [← hfe], Or.inl hfe.symm⟩

theorem any_false_of_sublist {α : Type} {p : α → Bool} {l1 l2 : List α}
    (h : l1.Sublist l2) (h2 : l2.any p = false) : l1.any p = false := by
  rw [List.any_eq_false] at *
  exact fun x hx => h2 x (h.subset hx)

/-! ### Sorted-key lemmas -/

theorem sortAsc_perm (l : List ℚ) : (sortAsc l).Perm l := List.perm_insertionSort _ l

theorem sortAsc_nil_iff (l : List ℚ) : sortAsc l = [] ↔ l = [] := by
  constructor
  · intro h
    have hp := (sortAsc_perm l).symm
    rw [h] at hp
    exact hp.eq_nil
  · intro h
    rw [h]; rfl

theorem sortDesc_nil_iff (l : List ℚ) : sortDesc l = [] ↔ l = [] := by
  rw [sortDesc, List.reverse_eq_nil_iff, sortAsc_nil_iff]

theorem sortAsc_head_mem (l : List ℚ) (p : ℚ) (t : List ℚ) (h : sortAsc l = p :: t) :
    p ∈ l := by
  exact (sortAsc_perm l).subset (h ▸ List.mem_cons_self p t)

theorem sortAsc_head_le (l : List ℚ) (p : ℚ) (t : List ℚ) (h : sortAsc l = p :: t) :
    ∀ x ∈ l, p ≤ x := by
  intro x hx
  have hs : List.Sorted (· ≤ ·) (sortAsc l) := List.sorted_insertionSort _ l
  rw [h, List.sorted_cons] at hs
  have hx2 : x ∈ p :: t := h ▸ (sortAsc_perm l).symm.subset hx
  rcases List.mem_cons.mp hx2 with h1 | h1
  · exact le_of_eq h1.symm
  · exact hs.1 x h1

theorem sortDesc_head_mem (l : List ℚ) (p : ℚ) (t : List ℚ) (h : sortDesc l = p :: t) :
    p ∈ l := by
  have hp : p ∈ sortDesc l := h ▸ List.mem_cons_self p t
  rw [sortDesc, List.mem_reverse] at hp
  exact (sortAsc_perm l).subset hp

theorem sortDesc_head_ge (l : List ℚ) (p : ℚ) (t : List ℚ) (h : sortDesc l = p :: t) :
    ∀ x ∈ l, x ≤ p := by
  intro x hx
  have ha : sortAsc l = t.reverse ++ [p] := by
    have := congrArg List.reverse h
    rw [sortDesc, List.reverse_reverse] at this
    rw [this, List.reverse_cons]
  have hs : List.Sorted (· ≤ ·) (sortAsc l) := List.sorted_insertionSort _ l
  rw [ha] at hs
  have hpair : List.Pairwise (· ≤ ·) (t.reverse ++ [p]) := hs
  rw [List.pairwise_append] at hpair
  have hx2 : x ∈ t.reverse ++ [p] := ha ▸ (sortAsc_perm l).symm.subset hx
  rcases List.mem_append.mp hx2 with h1 | h1
  · exact hpair.2.2 x h1 p (List.mem_singleton_self p)
  · exact le_of_eq (List.mem_singleton.mp h1)

/-- `maxKey` returns a member that bounds the list from above. -/
theorem maxKey_spec (l : List ℚ) (m : ℚ) (h : maxKey l = some m) :
    m ∈ l ∧ ∀ x ∈ l, x ≤ m := by
  induction l generalizing m with
  | nil => simp [maxKey] at h
  | cons k ks ih =>
    simp only [maxKey] at h
    cases hks : maxKey ks with
    | none =>
      rw [hks] at h
      injection h with h
      subst h
      have : ks = [] := by cases ks with
        | nil => rfl
        | cons a t => simp [maxKey] at hks; cases hmk : maxKey t <;> rw [hmk] at hks <;> simp at hks
      subst this
      exact ⟨List.mem_singleton_self _, by simp⟩
    | some m2 =>
      rw [hks] at h
      injection h with h
      subst h
      obtain ⟨hm2, hb⟩ := ih m2 hks
      constructor
      · rcases max_cases k m2 with ⟨he, _⟩ | ⟨he, _⟩
        · rw [he]; exact List.mem_cons_self _ _
        · rw [he]; exact List.mem_cons_of_mem _ hm2
      · intro x hx
        rcases List.mem_cons.mp hx with h1 | h1
        · rw [h1]; exact le_max_left _ _
        · exact le_trans (hb x h1) (le_max_right _ _)

/-- Helper lemmas about record plumbing. -/
theorem bookSide_setSide_self (b : OrderBook) (s : Side) (d : SideDict) :
    bookSide (setSide b s d) s = d := by
  cases s <;> rfl

theorem bookSide_setSide_ne (b : OrderBook) (s s2 : Side) (d : SideDict) (h : s2 ≠ s) :
    bookSide (setSide b s d) s2 = bookSide b s2 := by
  cases s <;> cases s2 <;> first | rfl | exact absurd rfl h

theorem bookSide_setOrders (c : OrderBook) (y : List (Nat × Order)) (s : Side) :
    bookSide { c with orders := y } s = bookSide c s := by
  cases s <;> rfl

theorem mutateResting_side_self (b : OrderBook) (r rNew : Order) :
    bookSide (mutateResting b r rNew) r.side =
      (bookSide b r.side).map
        (fun e => if e.1 == normalize_price (priceQ r)
                  then (e.1, { e.2 with orders := replaceFirst e.2.orders r rNew }) else e) := by
  unfold mutateResting
  rw [bookSide_setOrders, bookSide_setSide_self]

theorem mutateResting_side_ne (b : OrderBook) (r rNew : Order) (s2 : Side)
    (h : s2 ≠ r.side) :
    bookSide (mutateResting b r rNew) s2 = bookSide b s2 := by
  unfold mutateResting
  rw [bookSide_setOrders, bookSide_setSide_ne _ _ _ _ h]

theorem mutateResting_orders (b : OrderBook) (r rNew : Order) :
    (mutateResting b r rNew).orders =
      b.orders.map (fun e => if e.1 == r.id then (e.1, rNew) else e) := rfl

theorem remove_order_side_ne (b : OrderBook) (o : Order) (s2 : Side)
    (h : s2 ≠ o.side) :
    bookSide (b.remove_order o) s2 = bookSide b s2 := by
  unfold OrderBook.remove_order
  rw [bookSide_setOrders, bookSide_setSide_ne _ _ _ _ h]

theorem remove_order_orders (b : OrderBook) (o : Order) :
    (b.remove_order o).orders = b.orders.eraseP (fun e => e.1 == o.id) := rfl

theorem remove_order_book_found (b : OrderBook) (o : Order) (e : ℚ × PriceLevel)
    (hf : (bookSide b o.side).find? (fun x => x.1 == normalize_price (priceQ o)) = some e) :
    bookSide (b.remove_order o) o.side =
      (if (e.2.remove_order o).is_empty
       then (bookSide b o.side).eraseP (fun e2 => e2.1 == normalize_price (priceQ o))
       else replaceVal (bookSide b o.side) (normalize_price (priceQ o)) (e.2.remove_order o)) := by
  unfold OrderBook.remove_order
  rw [bookSide_setOrders, bookSide_setSide_self, hf]

/-- Ids of a generic pair list survive a value update. -/
theorem mapIf_id_keys (l : List (Nat × Order)) (i : Nat) (v : Order) :
    (l.map (fun e => if e.1 == i then (e.1, v) else e)).map (·.1) = l.map (·.1) := by
  rw [List.map_map]
  apply List.map_congr_left
  intro e _
  simp only [Function.comp]
  by_cases h : (e.1 == i) = true
  · rw [if_pos h]
  · rw [if_neg h]

theorem sweepOrders_nonpos (taker : Order) (price : ℚ) (b : OrderBook) (q : ℚ)
    (tid : Nat) (copy : List Order) (h : q ≤ 0) :
    sweepOrders taker price b q tid copy = ⟨[], b, q, tid⟩ := by
  cases copy <;> simp [sweepOrders, h]

theorem sweepOrders_trades (taker : Order) (price : ℚ) (copy : List Order) :
    ∀ (b : OrderBook) (q : ℚ) (tid : Nat),
    (sweepOrders taker price b q tid copy).trades = sweepTrades taker price q tid copy := by
  induction copy with
  | nil => intro b q tid; rfl
  | cons r rest ih =>
    intro b q tid
    by_cases hq : q ≤ 0
    · simp [sweepOrders, sweepTrades, hq]
    · simp only [sweepOrders, sweepTrades, hq, if_false]
      rw [ih]

theorem sweepOrders_q (taker : Order) (price : ℚ) (copy : List Order) :
    ∀ (b : OrderBook) (q : ℚ) (tid : Nat),
    (sweepOrders taker price b q tid copy).q = sweepQ q copy := by
  induction copy with
  | nil => intro b q tid; rfl
  | cons r rest ih =>
    intro b q tid
    by_cases hq : q ≤ 0
    · simp [sweepOrders, sweepQ, hq]
    · simp only [sweepOrders, sweepQ, hq, if_false]
      rw [ih]

/-- In-place decrement of the head resting order of the level at `(s, k)`:
the level keeps its key, its (stale) aggregate and its tail, with the head
object rewritten. -/
theorem mutate_book (b : OrderBook) (r rN : Order) (k : ℚ) (s : Side) (lv : PriceLevel)
    (rest : List Order)
    (hside : r.side = s) (hkey : normalize_price (priceQ r) = k)
    (hn : ((bookSide b s).map (·.1)).Nodup)
    (hf : (bookSide b s).find? (fun e => e.1 == k) = some (k, lv))
    (hlv : lv.orders = r :: rest) :
    bookSide (mutateResting b r rN) s =
      replaceVal (bookSide b s) k ⟨lv.price, rN :: rest, lv.total_quantity⟩ := by
  have h1 := mutateResting_side_self b r rN
  rw [hside, hkey] at h1
  have h3 := mapIf_eq_replaceVal (bookSide b s) k (k, lv)
      (fun lvx => { lvx with orders := replaceFirst lvx.orders r rN }) hn hf
  have h2 : replaceFirst lv.orders r rN = rN :: rest := by
    rw [hlv]
    simp [replaceFirst]
  rw [h1, h3]
  congr 1
  dsimp only
  rw [h2]

/-- Removing the (fully filled, quantity 0) head object from the level at
`(s, k)`: the level is deleted when the tail is empty, else survives with
the tail and an unchanged aggregate (the head contributes `-0`). -/
theorem fillRemove_book (b : OrderBook) (r rN : Order) (k : ℚ) (s : Side) (lv : PriceLevel)
    (rest : List Order)
    (hside : r.side = s) (hkey : normalize_price (priceQ r) = k)
    (hn : ((bookSide b s).map (·.1)).Nodup)
    (hf : (bookSide b s).find? (fun e => e.1 == k) = some (k, lv))
    (hlv : lv.orders = r :: rest)
    (hNside : rN.side = r.side) (hNprice : priceQ rN = priceQ r)
    (hNq : rN.quantity = 0) :
    bookSide ((mutateResting b r rN).remove_order rN) s =
      (if List.isEmpty rest then (bookSide b s).eraseP (fun e2 => e2.1 == k)
       else replaceVal (bookSide b s) k ⟨lv.price, rest, lv.total_quantity⟩) := by
  have hb1 := mutate_book b r rN k s lv rest hside hkey hn hf hlv
  have hfind1 : (bookSide (mutateResting b r rN) rN.side).find?
      (fun e => e.1 == normalize_price (priceQ rN)) =
      some (k, ⟨lv.price, rN :: rest, lv.total_quantity⟩) := by
    rw [hNside, hside, hNprice, hkey, hb1, find?_replaceVal_self, hf]
    rfl
  have h2 := remove_order_book_found (mutateResting b r rN) rN _ hfind1
  rw [hNside, hside, hNprice, hkey] at h2
  have hrm : (((k, (⟨lv.price, rN :: rest, lv.total_quantity⟩ : PriceLevel)) : ℚ × PriceLevel)).2.remove_order rN
      = ⟨lv.price, rest, lv.total_quantity⟩ := by
    show PriceLevel.remove_order _ rN = _
    rw [PriceLevel.remove_order, if_pos (List.mem_cons_self _ _)]
    simp only [List.erase_cons_head, hNq, sub_zero]
  rw [hrm] at h2
  rw [h2, hb1]
  by_cases hre : List.isEmpty rest
  · rw [if_pos (show (⟨lv.price, rest, lv.total_quantity⟩ : PriceLevel).is_empty from hre),
        if_pos hre, eraseP_replaceVal _ _ _ hn]
  · rw [if_neg (show ¬ (⟨lv.price, rest, lv.total_quantity⟩ : PriceLevel).is_empty from hre),
        if_neg hre, replaceVal_replaceVal]

theorem fillRemove_side_ne (b : OrderBook) (r rN : Order) (s s2 : Side)
    (hside : r.side = s) (hNside : rN.side = r.side) (hs2 : s2 ≠ s) :
    bookSide ((mutateResting b r rN).remove_order rN) s2 = bookSide b s2 := by
  rw [remove_order_side_ne _ _ s2 (by rw [hNside, hside]; exact hs2)]
  exact mutateResting_side_ne b r rN s2 (by rw [hside]; exact hs2)

theorem fillRemove_ids (b : OrderBook) (r rN : Order) :
    (((mutateResting b r rN).remove_order rN).orders.map (·.1)).Sublist
      (b.orders.map (·.1)) := by
  rw [remove_order_orders]
  have h1 : ((mutateResting b r rN).orders.map (·.1)) = b.orders.map (·.1) := by
    rw [mutateResting_orders]
    exact mapIf_id_keys b.orders r.id rN
  rw [← h1]
  exact List.Sublist.map (fun e : Nat × Order => e.1) (List.eraseP_sublist _)

/-- Master characterization of one level sweep.  Starting from a book whose
`s`-side dict has a (unique-keyed) entry `(k, lv)` with `lv.orders = copy`,
the sweep leaves every other side and key alone, only erases ids from the
id index, and its `s`-side result is: the level deleted when every resting
order was consumed, else the level with the surviving orders and an
UNCHANGED `total_quantity` (the stored aggregate is never decremented by
fills — `_match_order` touches only `resting_order.quantity`). -/
theorem sweepOrders_book (taker : Order) (k : ℚ) (s : Side) (copy : List Order) :
    ∀ (b : OrderBook) (q : ℚ) (tid : Nat) (lv : PriceLevel),
    (∀ r ∈ copy, r.side = s ∧ normalize_price (priceQ r) = k) →
    ((bookSide b s).map (·.1)).Nodup →
    (bookSide b s).find? (fun e => e.1 == k) = some (k, lv) →
    lv.orders = copy →
    copy ≠ [] →
    (∀ s2, s2 ≠ s → bookSide (sweepOrders taker k b q tid copy).book s2 = bookSide b s2) ∧
    ((sweepOrders taker k b q tid copy).book.orders.map (·.1)).Sublist (b.orders.map (·.1)) ∧
    (sweepRemaining q copy = [] →
       bookSide (sweepOrders taker k b q tid copy).book s =
         (bookSide b s).eraseP (fun e => e.1 == k)) ∧
    (sweepRemaining q copy ≠ [] →
       bookSide (sweepOrders taker k b q tid copy).book s =
         replaceVal (bookSide b s) k ⟨lv.price, sweepRemaining q copy, lv.total_quantity⟩) := by
  induction copy with
  | nil => intro b q tid lv _ _ _ _ hne; exact absurd rfl hne
  | cons r rest ih =>
    intro b q tid lv hcopy hn hf hlv _
    obtain ⟨hside, hkey⟩ := hcopy r (List.mem_cons_self _ _)
    by_cases hq : q ≤ 0
    · rw [sweepOrders_nonpos _ _ _ _ _ _ hq]
      have hrem : sweepRemaining q (r :: rest) = r :: rest :=
        sweepRemaining_nonpos _ _ hq (by simp)
      refine ⟨fun s2 _ => rfl, List.Sublist.refl _, ?_, ?_⟩
      · intro hcontra
        rw [hrem] at hcontra
        simp at hcontra
      · intro _
        rw [hrem]
        have hlv2 : (⟨lv.price, r :: rest, lv.total_quantity⟩ : PriceLevel) = lv := by
          rw [← hlv]
        rw [hlv2]
        exact (replaceVal_self (bookSide b s) k (k, lv) hn hf).symm
    · by_cases hfill : r.quantity ≤ q
      · -- the head order is fully consumed and removed from the book
        have hmin : min q r.quantity = r.quantity := min_eq_right hfill
        have hcond : r.quantity - min q r.quantity ≤ 0 := by rw [hmin, sub_self]
        have hbook : (sweepOrders taker k b q tid (r :: rest)).book =
            (sweepOrders taker k
              ((mutateResting b r { r with quantity := r.quantity - min q r.quantity }).remove_order
                { r with quantity := r.quantity - min q r.quantity })
              (q - min q r.quantity) (tid + 1) rest).book := by
          simp only [sweepOrders, hq, if_false, if_pos hcond]
        have hrem : sweepRemaining q (r :: rest) = sweepRemaining (q - r.quantity) rest := by
          simp only [sweepRemaining, hq, if_false, if_pos hfill]
        have hNq : ({ r with quantity := r.quantity - min q r.quantity } : Order).quantity = 0 := by
          show r.quantity - min q r.quantity = 0
          rw [hmin, sub_self]
        have hb2 := fillRemove_book b r { r with quantity := r.quantity - min q r.quantity }
          k s lv rest hside hkey hn hf hlv rfl rfl hNq
        have hb2ne := fun s2 hs2 => fillRemove_side_ne b r
          { r with quantity := r.quantity - min q r.quantity } s s2 hside rfl hs2
        have hb2ids := fillRemove_ids b r { r with quantity := r.quantity - min q r.quantity }
        have hminrw : q - min q r.quantity = q - r.quantity := by rw [hmin]
        cases rest with
        | nil =>
          have hrem2 : sweepRemaining q [r] = [] := by rw [hrem]; rfl
          rw [hbook, show (sweepOrders taker k
              ((mutateResting b r { r with quantity := r.quantity - min q r.quantity }).remove_order
                { r with quantity := r.quantity - min q r.quantity })
              (q - min q r.quantity) (tid + 1) []) =
              ⟨[], (mutateResting b r { r with quantity := r.quantity - min q r.quantity }).remove_order
                { r with quantity := r.quantity - min q r.quantity }, q - min q r.quantity, tid + 1⟩ from rfl]
          refine ⟨hb2ne, hb2ids, ?_, ?_⟩
          · intro _
            rw [hb2]
            rfl
          · intro hcontra
            exact absurd hrem2 hcontra
        | cons r2 rest2 =>
          have hreF : ¬ List.isEmpty (r2 :: rest2) := by simp [List.isEmpty]
          have hb2' : bookSide ((mutateResting b r { r with quantity := r.quantity - min q r.quantity }).remove_order
              { r with quantity := r.quantity - min q r.quantity }) s =
              replaceVal (bookSide b s) k ⟨lv.price, r2 :: rest2, lv.total_quantity⟩ := by
            rw [hb2, if_neg hreF]
          have hb2good : ((bookSide ((mutateResting b r { r with quantity := r.quantity - min q r.quantity }).remove_order
              { r with quantity := r.quantity - min q r.quantity }) s).map (·.1)).Nodup := by
            rw [hb2', replaceVal_keys]
            exact hn
          have hb2find : (bookSide ((mutateResting b r { r with quantity := r.quantity - min q r.quantity }).remove_order
              { r with quantity := r.quantity - min q r.quantity }) s).find? (fun e => e.1 == k) =
              some (k, ⟨lv.price, r2 :: rest2, lv.total_quantity⟩) := by
            rw [hb2', find?_replaceVal_self, hf]
            rfl
          obtain ⟨ih1, ih2, ih3, ih4⟩ := ih
            ((mutateResting b r { r with quantity := r.quantity - min q r.quantity }).remove_order
              { r with quantity := r.quantity - min q r.quantity })
            (q - min q r.quantity) (tid + 1) ⟨lv.price, r2 :: rest2, lv.total_quantity⟩
            (fun x hx => hcopy x (List.mem_cons_of_mem _ hx)) hb2good hb2find rfl (by simp)
          rw [hbook]
          refine ⟨?_, ?_, ?_, ?_⟩
          · intro s2 hs2
            rw [ih1 s2 hs2]
            exact hb2ne s2 hs2
          · exact ih2.trans hb2ids
          · intro hrnil
            rw [hrem, ← hminrw] at hrnil
            rw [ih3 hrnil, hb2', eraseP_replaceVal _ _ _ hn]
          · intro hrne
            rw [hrem, ← hminrw] at hrne
            rw [ih4 hrne, hb2', replaceVal_replaceVal, hrem, ← hminrw]
      · -- head only partially consumed: the taker is exhausted and the sweep stops
        have hlt : q < r.quantity := not_le.mp hfill
        have hmin : min q r.quantity = q := min_eq_left (le_of_lt hlt)
        have hcond : ¬ (r.quantity - min q r.quantity ≤ 0) := by
          rw [hmin]
          exact not_le.mpr (sub_pos.mpr hlt)
        have hbook : (sweepOrders taker k b q tid (r :: rest)).book =
            (sweepOrders taker k
              (mutateResting b r { r with quantity := r.quantity - min q r.quantity })
              (q - min q r.quantity) (tid + 1) rest).book := by
          simp only [sweepOrders, hq, if_false, if_neg hcond]
        have hz : q - min q r.quantity ≤ 0 := by rw [hmin, sub_self]
        rw [hbook, sweepOrders_nonpos _ _ _ _ _ _ hz]
        have hb1 := mutate_book b r { r with quantity := r.quantity - min q r.quantity }
          k s lv rest hside hkey hn hf hlv
        have hrem : sweepRemaining q (r :: rest) =
            { r with quantity := r.quantity - min q r.quantity } :: rest := by
          simp only [sweepRemaining, hq, if_false, if_neg hfill, hmin]
        have hb1ids : ((mutateResting b r { r with quantity := r.quantity - min q r.quantity }).orders.map (·.1)) = b.orders.map (·.1) := by
          rw [mutateResting_orders]
          exact mapIf_id_keys b.orders r.id _
        refine ⟨fun s2 hs2 => mutateResting_side_ne b r _ s2 (by rw [hside]; exact hs2),
          by rw [hb1ids], ?_, ?_⟩
        · intro hcontra
          rw [hrem] at hcontra
          simp at hcontra
        · intro _
          rw [hrem, hb1]

theorem opp_ne (s : Side) : opp s ≠ s := by
  cases s <;> simp [opp]

theorem ne_opp (s : Side) : s ≠ opp s := (opp_ne s).symm

/-- One step of the outer price loop from a well-formed opposite side:
either the price check breaks immediately (nothing happens), or the best
level is swept and the loop ENDS THERE — crashing with a `KeyError` when
the sweep emptied the level (the level was already deleted by
`remove_order`, and `del opposite_book[price]` raises), and returning
normally with the taker exhausted otherwise.  Deeper prices are never
reached. -/
theorem matchLoop_cons_char (taker : Order) (market : Bool) (b : OrderBook) (q : ℚ)
    (tid : Nat) (p : ℚ) (ps : List ℚ)
    (hG : GoodSide (opp taker.side) (bookSide b (opp taker.side)))
    (hmem : p ∈ (bookSide b (opp taker.side)).map (·.1)) :
    (matchLoop taker market b q tid (p :: ps) = ⟨[], b, q, false, tid⟩ ∧
       market = false ∧
       ((taker.side = .buy ∧ normalize_price (priceQ taker) < p) ∨
        (taker.side = .sell ∧ p < normalize_price (priceQ taker)))) ∨
    (∃ ent ∈ bookSide b (opp taker.side), ent.1 = p ∧
       ¬ (market = false ∧
          ((taker.side = .buy ∧ normalize_price (priceQ taker) < p) ∨
           (taker.side = .sell ∧ p < normalize_price (priceQ taker)))) ∧
       (matchLoop taker market b q tid (p :: ps)).trades = sweepTrades taker p q tid ent.2.orders ∧
       (matchLoop taker market b q tid (p :: ps)).q = sweepQ q ent.2.orders ∧
       bookSide (matchLoop taker market b q tid (p :: ps)).book taker.side = bookSide b taker.side ∧
       (((matchLoop taker market b q tid (p :: ps)).book.orders.map (·.1)).Sublist (b.orders.map (·.1))) ∧
       (sweepRemaining q ent.2.orders = [] →
          (matchLoop taker market b q tid (p :: ps)).crashed = true ∧
          bookSide (matchLoop taker market b q tid (p :: ps)).book (opp taker.side) =
            (bookSide b (opp taker.side)).eraseP (fun x => x.1 == p)) ∧
       (sweepRemaining q ent.2.orders ≠ [] →
          (matchLoop taker market b q tid (p :: ps)).crashed = false ∧
          (matchLoop taker market b q tid (p :: ps)).q ≤ 0 ∧
          bookSide (matchLoop taker market b q tid (p :: ps)).book (opp taker.side) =
            replaceVal (bookSide b (opp taker.side)) p
              ⟨ent.2.price, sweepRemaining q ent.2.orders, ent.2.total_quantity⟩)) := by
  by_cases hC : market = false ∧
      ((taker.side = .buy ∧ normalize_price (priceQ taker) < p) ∨
       (taker.side = .sell ∧ p < normalize_price (priceQ taker)))
  · left
    refine ⟨?_, hC.1, hC.2⟩
    simp only [matchLoop]
    rw [if_pos hC]
  · right
    obtain ⟨x, hx, hx1⟩ := List.mem_map.mp hmem
    obtain ⟨ent, hfind, hentmem, hent1⟩ := find?_key_of_mem _ p x hx hx1
    have hf2 : (bookSide b (opp taker.side)).find? (fun e => e.1 == p) = some (p, ent.2) := by
      rw [hfind]
      rw [show ent = (ent.1, ent.2) from rfl, hent1]
    obtain ⟨hlvne, hlvall⟩ := hG.2 ent hentmem
    have hcopy : ∀ o ∈ ent.2.orders, o.side = opp taker.side ∧ normalize_price (priceQ o) = p := by
      intro o ho
      obtain ⟨h1, h2, _⟩ := hlvall o ho
      exact ⟨h1, hent1 ▸ h2⟩
    have hpos : ∀ o ∈ ent.2.orders, 0 < o.quantity := fun o ho => (hlvall o ho).2.2
    obtain ⟨sb1, sb2, sb3, sb4⟩ := sweepOrders_book taker p (opp taker.side) ent.2.orders
      b q tid ent.2 hcopy hG.1 hf2 rfl hlvne
    have hst := sweepOrders_trades taker p ent.2.orders b q tid
    have hsq := sweepOrders_q taker p ent.2.orders b q tid
    by_cases hrem : sweepRemaining q ent.2.orders = []
    · -- level emptied: crash on the double delete
      have hbside := sb3 hrem
      have hfana : (bookSide (sweepOrders taker p b q tid ent.2.orders).book (opp taker.side)).find?
          (fun e2 => e2.1 == p) = none := by
        rw [hbside]
        exact find?_eraseP_self _ _ hG.1
      have hany : (bookSide (sweepOrders taker p b q tid ent.2.orders).book (opp taker.side)).any
          (fun e2 => e2.1 == p) = false := by
        rw [hbside]
        exact any_eraseP_self _ _ hG.1
      have hR : matchLoop taker market b q tid (p :: ps) =
          ⟨(sweepOrders taker p b q tid ent.2.orders).trades,
           (sweepOrders taker p b q tid ent.2.orders).book,
           (sweepOrders taker p b q tid ent.2.orders).q, true,
           (sweepOrders taker p b q tid ent.2.orders).tid⟩ := by
        simp only [matchLoop]
        rw [if_neg hC, hf2]
        simp only [hfana, hany]
        rfl
      refine ⟨ent, hentmem, hent1, hC, ?_, ?_, ?_, ?_, ?_, ?_⟩
      · rw [hR]; exact hst
      · rw [hR]; exact hsq
      · rw [hR]; exact sb1 taker.side (ne_opp taker.side)
      · rw [hR]; exact sb2
      · intro _
        rw [hR]
        exact ⟨rfl, hbside⟩
      · intro hcontra
        exact absurd hrem hcontra
    · -- level survives: the taker must be exhausted, the loop returns
      have hbside := sb4 hrem
      have hfana : (bookSide (sweepOrders taker p b q tid ent.2.orders).book (opp taker.side)).find?
          (fun e2 => e2.1 == p) =
          some (p, ⟨ent.2.price, sweepRemaining q ent.2.orders, ent.2.total_quantity⟩) := by
        rw [hbside, find?_replaceVal_self, hf2]
        rfl
      have hqle : (sweepOrders taker p b q tid ent.2.orders).q ≤ 0 := by
        rw [hsq]
        by_cases hq : q ≤ 0
        · rw [sweepQ_nonpos _ _ hq]; exact hq
        · by_contra hcon
          push_neg at hcon
          exact hrem (sweepRemaining_of_pos _ _ (not_le.mp hq) hpos hcon)
      have hemp : (List.isEmpty (sweepRemaining q ent.2.orders)) = false := by
        cases hsr : sweepRemaining q ent.2.orders with
        | nil => exact absurd hsr hrem
        | cons a t => rfl
      have hR : matchLoop taker market b q tid (p :: ps) =
          ⟨(sweepOrders taker p b q tid ent.2.orders).trades,
           (sweepOrders taker p b q tid ent.2.orders).book,
           (sweepOrders taker p b q tid ent.2.orders).q, false,
           (sweepOrders taker p b q tid ent.2.orders).tid⟩ := by
        simp only [matchLoop]
        rw [if_neg hC, hf2]
        simp only [hfana, hemp]
        rw [if_neg (show ¬ (false = true) by simp)]
        rw [if_pos hqle]
      refine ⟨ent, hentmem, hent1, hC, ?_, ?_, ?_, ?_, ?_, ?_⟩
      · rw [hR]; exact hst
      · rw [hR]; exact hsq
      · rw [hR]; exact sb1 taker.side (ne_opp taker.side)
      · rw [hR]; exact sb2
      · intro hcontra
        exact absurd hcontra hrem
      · intro _
        rw [hR]
        exact ⟨rfl, hqle, hbside⟩

/-- Characterization of `_match_order`: either no admissible level exists
(empty opposite side, or the best level already fails the limit check) and
nothing happens, or exactly the best opposite level trades: crashing with
`KeyError` when it is fully consumed, else returning with the taker
exhausted.  Either way the incoming side is untouched and the id index only
shrinks. -/
theorem match_order_char (b : OrderBook) (taker : Order) (market : Bool) (tid : Nat)
    (hG : GoodSide (opp taker.side) (bookSide b (opp taker.side))) :
    bookSide (match_order b taker market tid).book taker.side = bookSide b taker.side ∧
    (((match_order b taker market tid).book.orders.map (·.1)).Sublist (b.orders.map (·.1))) ∧
    ((match_order b taker market tid = ⟨[], b, taker.quantity, false, tid⟩ ∧
        (bookSide b (opp taker.side) = [] ∨
         (market = false ∧
          ((taker.side = .buy ∧
              ∀ e2 ∈ bookSide b (opp taker.side), normalize_price (priceQ taker) < e2.1) ∨
           (taker.side = .sell ∧
              ∀ e2 ∈ bookSide b (opp taker.side), e2.1 < normalize_price (priceQ taker)))))) ∨
     (∃ ent ∈ bookSide b (opp taker.side),
        (∀ e2 ∈ bookSide b (opp taker.side),
           (taker.side = .buy → ent.1 ≤ e2.1) ∧ (taker.side = .sell → e2.1 ≤ ent.1)) ∧
        (market = true ∨
         (taker.side = .buy ∧ ent.1 ≤ normalize_price (priceQ taker)) ∨
         (taker.side = .sell ∧ normalize_price (priceQ taker) ≤ ent.1)) ∧
        (match_order b taker market tid).trades =
          sweepTrades taker ent.1 taker.quantity tid ent.2.orders ∧
        (match_order b taker market tid).q = sweepQ taker.quantity ent.2.orders ∧
        (sweepRemaining taker.quantity ent.2.orders = [] →
           (match_order b taker market tid).crashed = true ∧
           bookSide (match_order b taker market tid).book (opp taker.side) =
             (bookSide b (opp taker.side)).eraseP (fun x => x.1 == ent.1)) ∧
        (sweepRemaining taker.quantity ent.2.orders ≠ [] →
           (match_order b taker market tid).crashed = false ∧
           (match_order b taker market tid).q ≤ 0 ∧
           bookSide (match_order b taker market tid).book (opp taker.side) =
             replaceVal (bookSide b (opp taker.side)) ent.1
               ⟨ent.2.price, sweepRemaining taker.quantity ent.2.orders,
                 ent.2.total_quantity⟩))) := by
  by_cases hside : taker.side = Side.buy
  · have hmo0 : match_order b taker market tid =
        matchLoop taker market b taker.quantity tid
          (sortAsc (dictKeys (bookSide b (opp taker.side)))) := by
      simp only [match_order, hside, opp]
    cases hps : sortAsc (dictKeys (bookSide b (opp taker.side))) with
    | nil =>
      have hdict : bookSide b (opp taker.side) = [] := by
        have h1 : dictKeys (bookSide b (opp taker.side)) = [] := (sortAsc_nil_iff _).mp hps
        rw [dictKeys] at h1
        exact List.map_eq_nil_iff.mp h1
      have hmo : match_order b taker market tid = ⟨[], b, taker.quantity, false, tid⟩ := by
        rw [hmo0, hps]
        rfl
      rw [hmo]
      exact ⟨rfl, List.Sublist.refl _, Or.inl ⟨rfl, Or.inl hdict⟩⟩
    | cons p ps =>
      have hmo : match_order b taker market tid =
          matchLoop taker market b taker.quantity tid (p :: ps) := by rw [hmo0, hps]
      have hpmem : p ∈ (bookSide b (opp taker.side)).map (·.1) := sortAsc_head_mem _ p ps hps
      have hple : ∀ x ∈ (bookSide b (opp taker.side)).map (·.1), p ≤ x :=
        sortAsc_head_le _ p ps hps
      have hchar := matchLoop_cons_char taker market b taker.quantity tid p ps hG hpmem
      rw [← hmo] at hchar
      rcases hchar with ⟨hres, hm, hck⟩ | ⟨ent, hentmem, hent1, hC, ht, hq, hts, hids, hnil, hne⟩
      · rw [hres]
        refine ⟨rfl, List.Sublist.refl _, Or.inl ⟨rfl, Or.inr ⟨hm, Or.inl ⟨hside, ?_⟩⟩⟩⟩
        intro e2 he2
        rcases hck with ⟨_, hlt⟩ | ⟨hcontra, _⟩
        · exact lt_of_lt_of_le hlt (hple e2.1 (List.mem_map_of_mem (·.1) he2))
        · rw [hside] at hcontra
          simp at hcontra
      · refine ⟨hts, hids, Or.inr ⟨ent, hentmem, ?_, ?_, by rw [hent1]; exact ht,
          hq, ?_, ?_⟩⟩
        · intro e2 he2
          refine ⟨fun _ => ?_, fun hcontra => ?_⟩
          · rw [hent1]
            exact hple e2.1 (List.mem_map_of_mem (·.1) he2)
          · rw [hside] at hcontra
            simp at hcontra
        · by_cases hmkt : market = true
          · exact Or.inl hmkt
          · have hmf : market = false := by
              cases market
              · rfl
              · exact absurd rfl hmkt
            refine Or.inr (Or.inl ⟨hside, ?_⟩)
            rw [hent1]
            by_contra hcon
            push_neg at hcon
            exact hC ⟨hmf, Or.inl ⟨hside, hcon⟩⟩
        · intro h1
          rw [hent1]
          exact hnil h1
        · intro h1
          rw [hent1]
          exact hne h1
  · have hside2 : taker.side = Side.sell := by
      cases h : taker.side
      · exact absurd h hside
      · rfl
    have hmo0 : match_order b taker market tid =
        matchLoop taker market b taker.quantity tid
          (sortDesc (dictKeys (bookSide b (opp taker.side)))) := by
      simp only [match_order, hside2, opp]
    cases hps : sortDesc (dictKeys (bookSide b (opp taker.side))) with
    | nil =>
      have hdict : bookSide b (opp taker.side) = [] := by
        have h1 : dictKeys (bookSide b (opp taker.side)) = [] := (sortDesc_nil_iff _).mp hps
        rw [dictKeys] at h1
        exact List.map_eq_nil_iff.mp h1
      have hmo : match_order b taker market tid = ⟨[], b, taker.quantity, false, tid⟩ := by
        rw [hmo0, hps]
        rfl
      rw [hmo]
      exact ⟨rfl, List.Sublist.refl _, Or.inl ⟨rfl, Or.inl hdict⟩⟩
    | cons p ps =>
      have hmo : match_order b taker market tid =
          matchLoop taker market b taker.quantity tid (p :: ps) := by rw [hmo0, hps]
      have hpmem : p ∈ (bookSide b (opp taker.side)).map (·.1) := sortDesc_head_mem _ p ps hps
      have hpge : ∀ x ∈ (bookSide b (opp taker.side)).map (·.1), x ≤ p :=
        sortDesc_head_ge _ p ps hps
      have hchar := matchLoop_cons_char taker market b taker.quantity tid p ps hG hpmem
      rw [← hmo] at hchar
      rcases hchar with ⟨hres, hm, hck⟩ | ⟨ent, hentmem, hent1, hC, ht, hq, hts, hids, hnil, hne⟩
      · rw [hres]
        refine ⟨rfl, List.Sublist.refl _, Or.inl ⟨rfl, Or.inr ⟨hm, Or.inr ⟨hside2, ?_⟩⟩⟩⟩
        intro e2 he2
        rcases hck with ⟨hcontra, _⟩ | ⟨_, hlt⟩
        · rw [hside2] at hcontra
          simp at hcontra
        · exact lt_of_le_of_lt (hpge e2.1 (List.mem_map_of_mem (·.1) he2)) hlt
      · refine ⟨hts, hids, Or.inr ⟨ent, hentmem, ?_, ?_, by rw [hent1]; exact ht,
          hq, ?_, ?_⟩⟩
        · intro e2 he2
          refine ⟨fun hcontra => ?_, fun _ => ?_⟩
          · rw [hside2] at hcontra
            simp at hcontra
          · rw [hent1]
            exact hpge e2.1 (List.mem_map_of_mem (·.1) he2)
        · by_cases hmkt : market = true
          · exact Or.inl hmkt
          · have hmf : market = false := by
              cases market
              · rfl
              · exact absurd rfl hmkt
            refine Or.inr (Or.inr ⟨hside2, ?_⟩)
            rw [hent1]
            by_contra hcon
            push_neg at hcon
            exact hC ⟨hmf, Or.inr ⟨hside2, hcon⟩⟩
        · intro h1
          rw [hent1]
          exact hnil h1
        · intro h1
          rw [hent1]
          exact hne h1

/-! ### Invariant preservation -/

theorem GoodSide_eraseP (s : Side) (d : SideDict) (k : ℚ) (h : GoodSide s d) :
    GoodSide s (d.eraseP (fun x => x.1 == k)) := by
  refine ⟨List.Nodup.sublist (List.Sublist.map (fun e : ℚ × PriceLevel => e.1)
    (List.eraseP_sublist d)) h.1, ?_⟩
  intro e he
  exact h.2 e ((List.eraseP_sublist d).subset he)

theorem GoodSide_replaceVal (s : Side) (d : SideDict) (k : ℚ) (v : PriceLevel)
    (h : GoodSide s d) (hv : GoodLevel s k v) : GoodSide s (replaceVal d k v) := by
  constructor
  · rw [replaceVal_keys]
    exact h.1
  · intro e2 he2
    obtain ⟨e, he, hkeq, hcase⟩ := mem_replaceVal d k v e2 he2
    rcases hcase with h1 | ⟨hek, h1⟩
    · rw [h1]
      exact h.2 e he
    · rw [h1]
      show GoodLevel s (e.1, v).1 (e.1, v).2
      rw [show ((e.1, v) : ℚ × PriceLevel).1 = e.1 from rfl,
          show ((e.1, v) : ℚ × PriceLevel).2 = v from rfl, hek]
      exact hv

theorem keys_sub_eraseP (d : SideDict) (k : ℚ) (e : ℚ × PriceLevel)
    (h : e ∈ d.eraseP (fun x => x.1 == k)) : ∃ e0 ∈ d, e.1 = e0.1 :=
  ⟨e, (List.eraseP_sublist d).subset h, rfl⟩

theorem keys_sub_replaceVal (d : SideDict) (k : ℚ) (v : PriceLevel) (e : ℚ × PriceLevel)
    (h : e ∈ replaceVal d k v) : ∃ e0 ∈ d, e.1 = e0.1 := by
  obtain ⟨e0, he0, hkeq, _⟩ := mem_replaceVal d k v e h
  exact ⟨e0, he0, hkeq⟩

theorem Inv_goodSides (b : OrderBook) (h : Inv b) : ∀ s, GoodSide s (bookSide b s) := by
  intro s
  cases s
  · exact h.1
  · exact h.2.1

theorem Inv_noCross' (b : OrderBook) (h : Inv b) :
    ∀ e ∈ bookSide b .buy, ∀ e2 ∈ bookSide b .sell, e.1 < e2.1 := h.2.2

theorem Inv_of_bookSide (B : OrderBook)
    (h1 : ∀ s, GoodSide s (bookSide B s))
    (h3 : ∀ e ∈ bookSide B .buy, ∀ e2 ∈ bookSide B .sell, e.1 < e2.1) : Inv B :=
  ⟨h1 .buy, h1 .sell, h3⟩

theorem side_cases (s s2 : Side) : s2 = s ∨ s2 = opp s := by
  cases s <;> cases s2 <;> simp [opp]

/-- A matching pass keeps the book invariant (in every branch, crash included). -/
theorem match_order_inv (b : OrderBook) (taker : Order) (market : Bool) (tid : Nat)
    (hInv : Inv b) : Inv (match_order b taker market tid).book := by
  have hGall := Inv_goodSides b hInv
  obtain ⟨hsame, _, hbr⟩ := match_order_char b taker market tid (hGall _)
  rcases hbr with ⟨hres, _⟩ | ⟨ent, hentmem, _, _, _, _, hnil, hne⟩
  · rw [hres]
    exact hInv
  · have hGent := (hGall (opp taker.side)).2 ent hentmem
    have hbook : bookSide (match_order b taker market tid).book (opp taker.side) =
        (bookSide b (opp taker.side)).eraseP (fun x => x.1 == ent.1) ∨
        (sweepRemaining taker.quantity ent.2.orders ≠ [] ∧
         bookSide (match_order b taker market tid).book (opp taker.side) =
          replaceVal (bookSide b (opp taker.side)) ent.1
            ⟨ent.2.price, sweepRemaining taker.quantity ent.2.orders, ent.2.total_quantity⟩) := by
      by_cases hrem : sweepRemaining taker.quantity ent.2.orders = []
      · exact Or.inl (hnil hrem).2
      · exact Or.inr ⟨hrem, (hne hrem).2.2⟩
    have hGnew : GoodLevel (opp taker.side) ent.1
        ⟨ent.2.price, sweepRemaining taker.quantity ent.2.orders, ent.2.total_quantity⟩ ∨
        sweepRemaining taker.quantity ent.2.orders = [] := by
      by_cases hrem : sweepRemaining taker.quantity ent.2.orders = []
      · exact Or.inr hrem
      · refine Or.inl ⟨by simpa using hrem, ?_⟩
        intro o ho
        obtain ⟨r0, hr0, hid, hsd, hpr⟩ := sweepRemaining_mem _ _ o ho
        obtain ⟨h1, h2, _⟩ := hGent.2 r0 hr0
        refine ⟨hsd ▸ h1, ?_, sweepRemaining_pos _ _ (fun x hx => (hGent.2 x hx).2.2) o ho⟩
        rw [show priceQ o = priceQ r0 by rw [priceQ, priceQ, hpr]]
        exact h2
    have hGside : ∀ s, GoodSide s (bookSide (match_order b taker market tid).book s) := by
      intro s
      rcases side_cases taker.side s with hs | hs
      · rw [hs, hsame]
        exact hGall _
      · rw [hs]
        rcases hbook with hb1 | ⟨hrem, hb1⟩
        · rw [hb1]
          exact GoodSide_eraseP _ _ _ (hGall _)
        · rw [hb1]
          refine GoodSide_replaceVal _ _ _ _ (hGall _) ?_
          rcases hGnew with h1 | h1
          · exact h1
          · exact absurd h1 hrem
    have hkeys : ∀ s, ∀ e ∈ bookSide (match_order b taker market tid).book s,
        ∃ e0 ∈ bookSide b s, e.1 = e0.1 := by
      intro s e he
      rcases side_cases taker.side s with hs | hs
      · rw [hs, hsame] at he
        exact ⟨e, hs ▸ he, rfl⟩
      · rw [hs] at he ⊢
        rcases hbook with hb1 | ⟨_, hb1⟩
        · rw [hb1] at he
          exact keys_sub_eraseP _ _ e he
        · rw [hb1] at he
          exact keys_sub_replaceVal _ _ _ e he
    refine Inv_of_bookSide _ hGside ?_
    intro e he e2 he2
    obtain ⟨e0, he0, hk0⟩ := hkeys .buy e he
    obtain ⟨e20, he20, hk20⟩ := hkeys .sell e2 he2
    rw [hk0, hk20]
    exact Inv_noCross' b hInv e0 he0 e20 he20

theorem mapIf_id_keys_q (d : SideDict) (k : ℚ) (f : PriceLevel → PriceLevel) :
    ((d.map (fun e => if e.1 == k then (e.1, f e.2) else e)).map (·.1)) = d.map (·.1) := by
  rw [List.map_map]
  apply List.map_congr_left
  intro e _
  simp only [Function.comp]
  by_cases h : (e.1 == k) = true
  · rw [if_pos h]
  · rw [if_neg h]

theorem add_order_side_self (b : OrderBook) (o : Order) :
    bookSide (b.add_order o) o.side =
      ((if (bookSide b o.side).any (fun e => e.1 == normalize_price (priceQ o))
        then bookSide b o.side
        else bookSide b o.side ++
          [(normalize_price (priceQ o), PriceLevel.init (normalize_price (priceQ o)))]).map
        (fun e => if e.1 == normalize_price (priceQ o)
                  then (e.1, e.2.add_order o) else e)) := by
  unfold OrderBook.add_order
  rw [bookSide_setOrders, bookSide_setSide_self]

theorem add_order_side_ne (b : OrderBook) (o : Order) (s2 : Side) (h : s2 ≠ o.side) :
    bookSide (b.add_order o) s2 = bookSide b s2 := by
  unfold OrderBook.add_order
  rw [bookSide_setOrders, bookSide_setSide_ne _ _ _ _ h]

/-- The shape of the own-side dict after `add_order`: either the existing
level at the canonical price got the order appended, or a fresh level was
created at the end of the dict. -/
theorem add_order_cases (b : OrderBook) (o : Order)
    (hn : ((bookSide b o.side).map (·.1)).Nodup) :
    (∃ ent, (bookSide b o.side).find? (fun e => e.1 == normalize_price (priceQ o)) = some ent ∧
       ent ∈ bookSide b o.side ∧ ent.1 = normalize_price (priceQ o) ∧
       bookSide (b.add_order o) o.side =
         replaceVal (bookSide b o.side) (normalize_price (priceQ o)) (ent.2.add_order o)) ∨
    (normalize_price (priceQ o) ∉ (bookSide b o.side).map (·.1) ∧
       bookSide (b.add_order o) o.side =
         bookSide b o.side ++ [(normalize_price (priceQ o),
           (PriceLevel.init (normalize_price (priceQ o))).add_order o)]) := by
  have hself := add_order_side_self b o
  by_cases hany : ((bookSide b o.side).any (fun e => e.1 == normalize_price (priceQ o))) = true
  · left
    obtain ⟨x, hx, hx1⟩ := List.any_eq_true.mp hany
    obtain ⟨ent, hfind, hentmem, hent1⟩ :=
      find?_key_of_mem _ _ x hx (by simpa [beq_iff_eq] using hx1)
    refine ⟨ent, hfind, hentmem, hent1, ?_⟩
    rw [hself, if_pos hany]
    exact mapIf_eq_replaceVal _ _ ent (fun lv => lv.add_order o) hn hfind
  · right
    have hanyf : ((bookSide b o.side).any (fun e => e.1 == normalize_price (priceQ o))) = false := by
      cases hb : (bookSide b o.side).any (fun e => e.1 == normalize_price (priceQ o))
      · rfl
      · exact absurd hb hany
    rw [List.any_eq_false] at hanyf
    have hnm : normalize_price (priceQ o) ∉ (bookSide b o.side).map (·.1) := by
      intro hcon
      obtain ⟨x, hx, hx1⟩ := List.mem_map.mp hcon
      exact hanyf x hx (by simpa [beq_iff_eq] using hx1)
    refine ⟨hnm, ?_⟩
    rw [hself, if_neg hany, List.map_append]
    have h1 : List.map (fun e => if e.1 == normalize_price (priceQ o)
        then (e.1, e.2.add_order o) else e) (bookSide b o.side) = bookSide b o.side :=
      mapIf_not_mem _ _ (fun lv => lv.add_order o) hnm
    rw [h1]
    congr 1
    simp

/-- Resting an order keeps the book invariant provided its quantity is
positive and every opposite level is strictly beyond its canonical price. -/
theorem add_order_inv (b : OrderBook) (o : Order) (hInv : Inv b) (hq : 0 < o.quantity)
    (hbeyond : bookSide b (opp o.side) = [] ∨
       (o.side = .buy ∧
          ∀ e ∈ bookSide b (opp o.side), normalize_price (priceQ o) < e.1) ∨
       (o.side = .sell ∧
          ∀ e ∈ bookSide b (opp o.side), e.1 < normalize_price (priceQ o))) :
    Inv (b.add_order o) := by
  have hGall := Inv_goodSides b hInv
  -- membership in the updated own side
  have hmem2 : ∀ e2 ∈ bookSide (b.add_order o) o.side,
      GoodLevel o.side e2.1 e2.2 ∧
      ((∃ e0 ∈ bookSide b o.side, e2.1 = e0.1) ∨ e2.1 = normalize_price (priceQ o)) := by
    intro e2 he2
    rcases add_order_cases b o (hGall o.side).1 with
      ⟨ent, hfind, hentmem, hent1, hd⟩ | ⟨hnm, hd⟩
    · rw [hd] at he2
      obtain ⟨e, he, hkeq, hcase⟩ := mem_replaceVal _ _ _ e2 he2
      rcases hcase with h1 | ⟨hek, h1⟩
      · rw [h1]
        exact ⟨(hGall o.side).2 e he, Or.inl ⟨e, he, rfl⟩⟩
      · have hGent := (hGall o.side).2 ent hentmem
        have hlv : GoodLevel o.side (normalize_price (priceQ o)) (ent.2.add_order o) := by
          refine ⟨by simp [PriceLevel.add_order], ?_⟩
          intro x hx
          rw [PriceLevel.add_order] at hx
          simp only [List.mem_append, List.mem_singleton] at hx
          rcases hx with hx | hx
          · obtain ⟨ha, hb2, hc⟩ := hGent.2 x hx
            exact ⟨ha, by rw [hb2, hent1], hc⟩
          · rw [hx]
            exact ⟨rfl, rfl, hq⟩
        rw [h1]
        refine ⟨?_, Or.inr (by rw [hek])⟩
        show GoodLevel o.side (e.1, ent.2.add_order o).1 (e.1, ent.2.add_order o).2
        rw [show ((e.1, ent.2.add_order o) : ℚ × PriceLevel).1 = e.1 from rfl,
            show ((e.1, ent.2.add_order o) : ℚ × PriceLevel).2 = ent.2.add_order o from rfl,
            hek]
        exact hlv
    · rw [hd] at he2
      rcases List.mem_append.mp he2 with he3 | he3
      · exact ⟨(hGall o.side).2 _ he3, Or.inl ⟨e2, he3, rfl⟩⟩
      · rw [List.mem_singleton] at he3
        have hlv : GoodLevel o.side (normalize_price (priceQ o))
            ((PriceLevel.init (normalize_price (priceQ o))).add_order o) := by
          refine ⟨by simp [PriceLevel.add_order, PriceLevel.init], ?_⟩
          intro x hx
          simp only [PriceLevel.add_order, PriceLevel.init, List.nil_append,
            List.mem_singleton] at hx
          rw [hx]
          exact ⟨rfl, rfl, hq⟩
        rw [he3]
        exact ⟨hlv, Or.inr rfl⟩
  have hGside : ∀ s, GoodSide s (bookSide (b.add_order o) s) := by
    intro s
    rcases side_cases o.side s with hs | hs
    · rw [hs]
      refine ⟨?_, fun e2 he2 => (hmem2 e2 he2).1⟩
      rcases add_order_cases b o (hGall o.side).1 with
        ⟨ent, _, _, _, hd⟩ | ⟨hnm, hd⟩
      · rw [hd, replaceVal_keys]
        exact (hGall o.side).1
      · rw [hd, List.map_append, List.nodup_append]
        refine ⟨(hGall o.side).1, by simp, ?_⟩
        intro x hx hx2
        simp only [List.map_cons, List.map_nil, List.mem_singleton] at hx2
        rw [hx2] at hx
        exact hnm hx
    · rw [hs, add_order_side_ne b o _ (opp_ne o.side)]
      exact hGall _
  refine Inv_of_bookSide _ hGside ?_
  intro e he e2 he2
  cases hos : o.side with
  | buy =>
    have he2' : e2 ∈ bookSide b Side.sell := by
      have h1 := add_order_side_ne b o Side.sell (by rw [hos]; simp)
      rw [← h1]
      exact he2
    have hed := hmem2 e (by rw [hos]; exact he)
    rcases hed.2 with ⟨e0, he0, hk0⟩ | h1
    · rw [hk0]
      exact Inv_noCross' b hInv e0 (by rw [hos] at he0; exact he0) e2 he2'
    · rw [h1]
      rcases hbeyond with hb1 | ⟨_, hb1⟩ | ⟨hcontra, _⟩
      · rw [show opp o.side = Side.sell by rw [hos]; rfl] at hb1
        rw [hb1] at he2'
        simp at he2'
      · rw [show opp o.side = Side.sell by rw [hos]; rfl] at hb1
        exact hb1 e2 he2'
      · rw [hos] at hcontra
        simp at hcontra
  | sell =>
    have he' : e ∈ bookSide b Side.buy := by
      have h1 := add_order_side_ne b o Side.buy (by rw [hos]; simp)
      rw [← h1]
      exact he
    have hed := hmem2 e2 (by rw [hos]; exact he2)
    rcases hed.2 with ⟨e0, he0, hk0⟩ | h1
    · rw [hk0]
      exact Inv_noCross' b hInv e he' e0 (by rw [hos] at he0; exact he0)
    · rw [h1]
      rcases hbeyond with hb1 | ⟨hcontra, _⟩ | ⟨_, hb1⟩
      · rw [show opp o.side = Side.buy by rw [hos]; rfl] at hb1
        rw [hb1] at he'
        simp at he'
      · rw [hos] at hcontra
        simp at hcontra
      · rw [show opp o.side = Side.buy by rw [hos]; rfl] at hb1
        exact hb1 e he'

theorem mem_level_remove (lv : PriceLevel) (o x : Order)
    (h : x ∈ (lv.remove_order o).orders) : x ∈ lv.orders := by
  rw [PriceLevel.remove_order] at h
  by_cases hm : o ∈ lv.orders
  · rw [if_pos hm] at h
    exact (lv.orders.erase_sublist o).subset h
  · rw [if_neg hm] at h
    exact h

/-- Cancelling / removing an arbitrary order keeps the book invariant. -/
theorem remove_order_inv (b : OrderBook) (o : Order) (hInv : Inv b) :
    Inv (b.remove_order o) := by
  have hGall := Inv_goodSides b hInv
  have hchar : bookSide (b.remove_order o) o.side = bookSide b o.side ∨
      (∃ ent, ent ∈ bookSide b o.side ∧ ent.1 = normalize_price (priceQ o) ∧
        (bookSide (b.remove_order o) o.side =
           (bookSide b o.side).eraseP (fun e2 => e2.1 == normalize_price (priceQ o)) ∨
         ((ent.2.remove_order o).is_empty = false ∧
          bookSide (b.remove_order o) o.side =
            replaceVal (bookSide b o.side) (normalize_price (priceQ o))
              (ent.2.remove_order o)))) := by
    cases hf : (bookSide b o.side).find? (fun e => e.1 == normalize_price (priceQ o)) with
    | none =>
      left
      unfold OrderBook.remove_order
      rw [bookSide_setOrders, bookSide_setSide_self, hf]
    | some ent =>
      right
      have hmem := List.mem_of_find?_eq_some hf
      have hkey : ent.1 = normalize_price (priceQ o) := by
        have := List.find?_some hf
        simpa [beq_iff_eq] using this
      refine ⟨ent, hmem, hkey, ?_⟩
      have h2 := remove_order_book_found b o ent hf
      by_cases hre : (ent.2.remove_order o).is_empty = true
      · left
        rw [h2, if_pos hre]
      · right
        refine ⟨by cases hb2 : (ent.2.remove_order o).is_empty with
          | true => exact absurd hb2 hre
          | false => rfl, ?_⟩
        rw [h2, if_neg hre]
  have hGside : ∀ s, GoodSide s (bookSide (b.remove_order o) s) := by
    intro s
    rcases side_cases o.side s with hs | hs
    · rw [hs]
      rcases hchar with h1 | ⟨ent, hentmem, hkey, h1 | ⟨hne, h1⟩⟩
      · rw [h1]
        exact hGall _
      · rw [h1]
        exact GoodSide_eraseP _ _ _ (hGall _)
      · rw [h1]
        refine GoodSide_replaceVal _ _ _ _ (hGall _) ?_
        have hGent := (hGall o.side).2 ent hentmem
        refine ⟨?_, ?_⟩
        · intro hcontra
          rw [PriceLevel.is_empty, hcontra] at hne
          simp at hne
        · intro x hx
          have := hGent.2 x (mem_level_remove ent.2 o x hx)
          exact ⟨this.1, by rw [this.2.1, hkey], this.2.2⟩
    · rw [hs, remove_order_side_ne b o _ (opp_ne o.side)]
      exact hGall _
  have hkeys : ∀ s, ∀ e ∈ bookSide (b.remove_order o) s,
      ∃ e0 ∈ bookSide b s, e.1 = e0.1 := by
    intro s e he
    rcases side_cases o.side s with hs | hs
    · rw [hs] at he ⊢
      rcases hchar with h1 | ⟨ent, _, _, h1 | ⟨_, h1⟩⟩
      · rw [h1] at he
        exact ⟨e, he, rfl⟩
      · rw [h1] at he
        exact keys_sub_eraseP _ _ e he
      · rw [h1] at he
        exact keys_sub_replaceVal _ _ _ e he
    · rw [hs, remove_order_side_ne b o _ (opp_ne o.side)] at he
      exact ⟨e, hs ▸ he, rfl⟩
  refine Inv_of_bookSide _ hGside ?_
  intro e he e2 he2
  obtain ⟨e0, he0, hk0⟩ := hkeys .buy e he
  obtain ⟨e20, he20, hk20⟩ := hkeys .sell e2 he2
  rw [hk0, hk20]
  exact Inv_noCross' b hInv e0 he0 e20 he20

theorem cancel_book_inv (b : OrderBook) (oid : Nat) (hInv : Inv b) :
    Inv ((cancel_order (some b) oid).2.getD b) := by
  cases hf : b.orders.find? (fun e => e.1 == oid) with
  | none =>
    have h1 : cancel_order (some b) oid = (.pyFalse, some b) := by
      simp only [cancel_order]
      rw [hf]
    rw [h1]
    exact hInv
  | some e =>
    have h1 : cancel_order (some b) oid = (.pyNone, some (b.remove_order e.2)) := by
      simp only [cancel_order]
      rw [hf]
    rw [h1]
    exact remove_order_inv b e.2 hInv

theorem execute_limit_inv (b : OrderBook) (o : Order) (ioc : Bool) (tid : Nat)
    (hInv : Inv b) : Inv (execute_limit_order b o ioc tid).book := by
  have hGall := Inv_goodSides b hInv
  obtain ⟨hsame, hids, hbr⟩ := match_order_char b o false tid (hGall _)
  simp only [execute_limit_order]
  by_cases hcr : (match_order b o false tid).crashed = true
  · rw [if_pos hcr]
    exact match_order_inv b o false tid hInv
  · rw [if_neg hcr]
    by_cases hq : 0 < (match_order b o false tid).q ∧ ioc = false
    · rw [if_pos hq]
      rcases hbr with ⟨hres, hbeyond⟩ | ⟨ent, hentmem, _, _, _, _, hnil, hne⟩
      · rw [hres]
        show Inv (b.add_order { o with quantity := o.quantity })
        rw [show ({ o with quantity := o.quantity } : Order) = o from rfl]
        apply add_order_inv b o hInv
        · have hq2 := hq.1
          rw [hres] at hq2
          exact hq2
        · rcases hbeyond with h1 | ⟨_, ⟨ha, hb2⟩ | ⟨ha, hb2⟩⟩
          · exact Or.inl h1
          · exact Or.inr (Or.inl ⟨ha, hb2⟩)
          · exact Or.inr (Or.inr ⟨ha, hb2⟩)
      · exfalso
        by_cases hrem : sweepRemaining o.quantity ent.2.orders = []
        · exact hcr (hnil hrem).1
        · exact absurd hq.1 (not_lt.mpr (hne hrem).2.1)
    · rw [if_neg hq]
      exact match_order_inv b o false tid hInv

theorem process_order_inv (b : OrderBook) (o : Order) (tid : Nat) (hInv : Inv b) :
    Inv (process_order b o tid).book := by
  cases ht : o.order_type with
  | market =>
    have h1 : process_order b o tid = match_order b o true tid := by
      simp only [process_order, ht, execute_market_order]
    rw [h1]
    exact match_order_inv b o true tid hInv
  | limit =>
    have h1 : process_order b o tid = execute_limit_order b o false tid := by
      simp only [process_order, ht]
    rw [h1]
    exact execute_limit_inv b o false tid hInv
  | ioc =>
    have h1 : process_order b o tid = execute_limit_order b o true tid := by
      simp only [process_order, ht]
    rw [h1]
    exact execute_limit_inv b o true tid hInv
  | fok =>
    have h1 : process_order b o tid =
        (if can_fully_fill b o then execute_limit_order b o false tid
         else ⟨[], b, o.quantity, false, tid⟩) := by
      simp only [process_order, ht]
    rw [h1]
    by_cases hc : can_fully_fill b o = true
    · rw [if_pos hc]
      exact execute_limit_inv b o false tid hInv
    · rw [if_neg hc]
      exact hInv

theorem runOp_inv (st : OrderBook × Nat) (op : EngineOp) (h : Inv st.1) :
    Inv (runOp st op).1 := by
  obtain ⟨b, tid⟩ := st
  cases op with
  | submit o => exact process_order_inv b o tid h
  | cancel oid => exact cancel_book_inv b oid h

theorem Inv_emptyBook : Inv emptyBook := by
  refine ⟨⟨List.nodup_nil, ?_⟩, ⟨List.nodup_nil, ?_⟩, ?_⟩ <;> intro e he <;>
    exact absurd he (List.not_mem_nil e)

theorem runOps_inv (ops : List EngineOp) : Inv (runOps ops).1 := by
  rw [runOps]
  have main : ∀ st : OrderBook × Nat, Inv st.1 → Inv (ops.foldl runOp st).1 := by
    induction ops with
    | nil => intro st h; exact h
    | cons op rest ih =>
      intro st h
      exact ih (runOp st op) (runOp_inv st op h)
  exact main (emptyBook, 0) Inv_emptyBook

theorem minKey_spec (l : List ℚ) (m : ℚ) (h : minKey l = some m) :
    m ∈ l ∧ ∀ x ∈ l, m ≤ x := by
  induction l generalizing m with
  | nil => simp [minKey] at h
  | cons k ks ih =>
    simp only [minKey] at h
    cases hks : minKey ks with
    | none =>
      rw [hks] at h
      injection h with h
      subst h
      have : ks = [] := by cases ks with
        | nil => rfl
        | cons a t => simp [minKey] at hks; cases hmk : minKey t <;> rw [hmk] at hks <;> simp at hks
      subst this
      exact ⟨List.mem_singleton_self _, by simp⟩
    | some m2 =>
      rw [hks] at h
      injection h with h
      subst h
      obtain ⟨hm2, hb⟩ := ih m2 hks
      constructor
      · rcases min_cases k m2 with ⟨he, _⟩ | ⟨he, _⟩
        · rw [he]; exact List.mem_cons_self _ _
        · rw [he]; exact List.mem_cons_of_mem _ hm2
      · intro x hx
        rcases List.mem_cons.mp hx with h1 | h1
        · rw [h1]; exact min_le_left _ _
        · exact le_trans (min_le_right _ _) (hb x h1)

/-! ### From `process_order` back to `_match_order` -/

/-- The trades of `_execute_limit_order` are those of the matching pass: the
rest step only touches the book. -/
theorem execute_limit_trades (b : OrderBook) (o : Order) (ioc : Bool) (tid : Nat) :
    (execute_limit_order b o ioc tid).trades = (match_order b o false tid).trades := by
  simp only [execute_limit_order]
  by_cases hcr : (match_order b o false tid).crashed = true
  · rw [if_pos hcr]
  · rw [if_neg hcr]
    by_cases h2 : 0 < (match_order b o false tid).q ∧ ioc = false
    · rw [if_pos h2]
    · rw [if_neg h2]

/-- With `is_ioc=True` the rest condition of `_execute_limit_order` is never
taken: the call IS the matching pass. -/
theorem execute_limit_ioc_eq (b : OrderBook) (o : Order) (tid : Nat) :
    execute_limit_order b o true tid = match_order b o false tid := by
  simp only [execute_limit_order]
  by_cases hcr : (match_order b o false tid).crashed = true
  · rw [if_pos hcr]
  · rw [if_neg hcr,
      if_neg (show ¬ (0 < (match_order b o false tid).q ∧ true = false) by simp)]

/-- `process_order` emits the trades of one matching pass (market or limit),
or none at all (FOK rejection). -/
theorem process_order_trades (b : OrderBook) (o : Order) (tid : Nat) :
    (process_order b o tid).trades = (match_order b o true tid).trades ∨
    (process_order b o tid).trades = (match_order b o false tid).trades ∨
    (process_order b o tid).trades = [] := by
  cases hot : o.order_type with
  | market =>
    left
    simp only [process_order, hot, execute_market_order]
  | limit =>
    right; left
    simp only [process_order, hot]
    exact execute_limit_trades b o false tid
  | ioc =>
    right; left
    simp only [process_order, hot]
    exact execute_limit_trades b o true tid
  | fok =>
    by_cases hff : can_fully_fill b o = true
    · right; left
      simp only [process_order, hot]
      rw [if_pos hff]
      exact execute_limit_trades b o false tid
    · right; right
      simp only [process_order, hot]
      rw [if_neg hff]

/-! ### The priority stream -/

theorem levelOrdersAt_eq (d : SideDict) (p : ℚ) (e2 : ℚ × PriceLevel)
    (hfind : d.find? (fun e => e.1 == p) = some e2) :
    levelOrdersAt d p = e2.2.orders := by
  simp only [levelOrdersAt, hfind]

/-- When `ent` is the best opposite level, the priority stream starts with
its FIFO queue. -/
theorem priority_decomp (b : OrderBook) (o : Order) (ent : ℚ × PriceLevel)
    (hn : ((bookSide b (opp o.side)).map (·.1)).Nodup)
    (hentmem : ent ∈ bookSide b (opp o.side))
    (hbest : ∀ e2 ∈ bookSide b (opp o.side),
      (o.side = .buy → ent.1 ≤ e2.1) ∧ (o.side = .sell → e2.1 ≤ ent.1)) :
    ∃ tail, priorityOrders b o = ent.2.orders ++ tail := by
  by_cases hside : o.side = Side.buy
  · have hd : bookSide b (opp o.side) = bookSide b Side.sell := by
      rw [hside]
      rfl
    rw [hd] at hn hentmem hbest
    have hP : priorityOrders b o =
        ((sortAsc (dictKeys (bookSide b Side.sell))).map
          (levelOrdersAt (bookSide b Side.sell))).flatten := by
      simp only [priorityOrders, hside, opp]
    cases hps : sortAsc (dictKeys (bookSide b Side.sell)) with
    | nil =>
      exfalso
      have h1 : dictKeys (bookSide b Side.sell) = [] := (sortAsc_nil_iff _).mp hps
      rw [dictKeys] at h1
      rw [List.map_eq_nil_iff.mp h1] at hentmem
      exact absurd hentmem (List.not_mem_nil ent)
    | cons p ps =>
      have hple := sortAsc_head_le _ p ps hps
      have hpmem : p ∈ (bookSide b Side.sell).map (·.1) := sortAsc_head_mem _ p ps hps
      have h1 : p ≤ ent.1 := hple ent.1 (List.mem_map_of_mem (·.1) hentmem)
      have h2 : ent.1 ≤ p := by
        obtain ⟨e2, he2, hk2⟩ := List.mem_map.mp hpmem
        have h3 := (hbest e2 he2).1 hside
        rw [hk2] at h3
        exact h3
      have hpe : p = ent.1 := le_antisymm h1 h2
      obtain ⟨e2, hfind, hmem2, hk2⟩ :=
        find?_key_of_mem (bookSide b Side.sell) p ent hentmem hpe.symm
      have he2 : e2 = ent := entry_unique _ e2 ent hn hmem2 hentmem (by rw [hk2, hpe])
      refine ⟨(ps.map (levelOrdersAt (bookSide b Side.sell))).flatten, ?_⟩
      rw [hP, hps]
      simp only [List.map_cons, List.flatten_cons]
      rw [levelOrdersAt_eq _ _ e2 hfind, he2]
  · have hside2 : o.side = Side.sell := by
      cases h : o.side
      · exact absurd h hside
      · rfl
    have hd : bookSide b (opp o.side) = bookSide b Side.buy := by
      rw [hside2]
      rfl
    rw [hd] at hn hentmem hbest
    have hP : priorityOrders b o =
        ((sortDesc (dictKeys (bookSide b Side.buy))).map
          (levelOrdersAt (bookSide b Side.buy))).flatten := by
      simp only [priorityOrders, hside2, opp]
    cases hps : sortDesc (dictKeys (bookSide b Side.buy)) with
    | nil =>
      exfalso
      have h1 : dictKeys (bookSide b Side.buy) = [] := (sortDesc_nil_iff _).mp hps
      rw [dictKeys] at h1
      rw [List.map_eq_nil_iff.mp h1] at hentmem
      exact absurd hentmem (List.not_mem_nil ent)
    | cons p ps =>
      have hpge := sortDesc_head_ge _ p ps hps
      have hpmem : p ∈ (bookSide b Side.buy).map (·.1) := sortDesc_head_mem _ p ps hps
      have h1 : ent.1 ≤ p := hpge ent.1 (List.mem_map_of_mem (·.1) hentmem)
      have h2 : p ≤ ent.1 := by
        obtain ⟨e2, he2, hk2⟩ := List.mem_map.mp hpmem
        have h3 := (hbest e2 he2).2 hside2
        rw [hk2] at h3
        exact h3
      have hpe : p = ent.1 := le_antisymm h2 h1
      obtain ⟨e2, hfind, hmem2, hk2⟩ :=
        find?_key_of_mem (bookSide b Side.buy) p ent hentmem hpe.symm
      have he2 : e2 = ent := entry_unique _ e2 ent hn hmem2 hentmem (by rw [hk2, hpe])
      refine ⟨(ps.map (levelOrdersAt (bookSide b Side.buy))).flatten, ?_⟩
      rw [hP, hps]
      simp only [List.map_cons, List.flatten_cons]
      rw [levelOrdersAt_eq _ _ e2 hfind, he2]

/-- Price-time priority of one matching pass: the maker ids are the first
`k` ids of the priority stream, and every trade but possibly the last
consumes its maker's full remaining quantity. -/
theorem match_order_priority (b : OrderBook) (o : Order) (market : Bool) (tid : Nat)
    (hInv : Inv b) :
    ((match_order b o market tid).trades.map (fun t => t.maker_order_id) =
      ((priorityOrders b o).take (match_order b o market tid).trades.length).map
        (fun r => r.id)) ∧
    ∀ i : Nat, i + 1 < (match_order b o market tid).trades.length →
      ((match_order b o market tid).trades.getD i someTrade).quantity =
        ((priorityOrders b o).getD i someOrder).quantity := by
  have hG := Inv_goodSides b hInv (opp o.side)
  obtain ⟨_, _, hdisj⟩ := match_order_char b o market tid hG
  rcases hdisj with ⟨heq, _⟩ | ⟨ent, hentmem, hbest, _, htr, _, _, _⟩
  · rw [heq]
    constructor
    · simp
    · intro i hi
      simp at hi
  · obtain ⟨tail, hPd⟩ := priority_decomp b o ent hG.1 hentmem hbest
    have hlen : (sweepTrades o ent.1 o.quantity tid ent.2.orders).length ≤
        ent.2.orders.length := sweepTrades_length_le o ent.1 ent.2.orders o.quantity tid
    constructor
    · rw [htr, hPd, sweepTrades_maker_prefix, List.take_append_of_le_length hlen]
    · intro i hi
      rw [htr] at hi ⊢
      rw [ sweepTrades_full_prefix o ent.1 ent.2.orders o.quantity tid i hi, hPd]
      have hilt : i < ent.2.orders.length := by omega
      rw [List.getD_append _ _ _ _ hilt]

/-- Field discipline of the trades of one matching pass. -/
theorem match_order_trade_fields (b : OrderBook) (o : Order) (market : Bool) (tid : Nat)
    (hInv : Inv b) :
    ∀ t ∈ (match_order b o market tid).trades,
      t.aggressor_side = o.side ∧ t.taker_order_id = o.id ∧
      ∃ e ∈ bookSide b (opp o.side), t.price = e.1 ∧
        ∃ r ∈ e.2.orders, t.maker_order_id = r.id ∧ normalize_price (priceQ r) = e.1 := by
  intro t ht
  have hG := Inv_goodSides b hInv (opp o.side)
  obtain ⟨_, _, hdisj⟩ := match_order_char b o market tid hG
  rcases hdisj with ⟨heq, _⟩ | ⟨ent, hentmem, _, _, htr, _, _, _⟩
  · rw [heq] at ht
    exact absurd ht (List.not_mem_nil t)
  · rw [htr] at ht
    obtain ⟨hsym, hprice, hagg, htoid, r, hr, hmid⟩ :=
      sweepTrades_mem o ent.1 ent.2.orders o.quantity tid t ht
    obtain ⟨hne, hall⟩ := hG.2 ent hentmem
    obtain ⟨hrside, hrnorm, hrpos⟩ := hall r hr
    exact ⟨hagg, htoid, ent, hentmem, hprice, r, hr, hmid, hrnorm⟩

/-! ### Foreign-id preservation -/

theorem hasOrderId_false_iff (d : SideDict) (oid : Nat) :
    hasOrderId d oid = false ↔ ∀ e ∈ d, ∀ r ∈ e.2.orders, ¬ r.id = oid := by
  rw [hasOrderId]
  simp only [List.any_eq_false, Bool.not_eq_true, beq_eq_false_iff_ne, ne_eq]

theorem any_key_map (l : List (Nat × Order)) (k : Nat) :
    (l.map (fun e => e.1)).any (fun x => x == k) = l.any (fun e => e.1 == k) := by
  induction l with
  | nil => rfl
  | cons a t ih => simp only [List.map_cons, List.any_cons, ih]

/-! ### The claims -/

/-- Claim C1 (code bug): after two resting sells of 5 at 100 are hit by a
buy of 5, the ask level at 100 keeps `total_quantity = 10` while the sum of
its orders' remaining quantities is 5 — `_match_order` decrements
`resting_order.quantity` without ever decrementing the level aggregate, and
`remove_order` then subtracts the already-zeroed quantity. -/
theorem C1_level_aggregate_stale :
    ((runOps opsC1).1.asks.map
      (fun e => (e.2.total_quantity, (e.2.orders.map Order.quantity).sum))) = [(10, 5)] ∧
    ¬ (10 : ℚ) = 5 := by
  with_unfolding_all decide

/-- Claim C2 (code bug): a fill-or-kill buy of 4 admitted against a book
with only 2 actually available passes `_can_fully_fill` (stale aggregate 5),
then the common pass emits one partial trade of quantity 2, mutates the book
(the ask side is consumed) and raises `KeyError` — neither a complete fill
nor a rejection with the book unchanged. -/
theorem C2_fok_not_all_or_nothing :
    can_fully_fill bookC2 fokC2 = true ∧
    ((bookC2.asks.map (fun e => (e.2.orders.map Order.quantity).sum)).sum = 2) ∧
    resC2.crashed = true ∧
    resC2.trades.map Trade.quantity = [2] ∧
    resC2.q = 2 ∧
    resC2.book.asks = [] ∧
    ¬ bookC2.asks = [] := by
  with_unfolding_all decide

/-- Claim C3 (confirmed): on every book reachable by a sequence of admitted
operations, whenever both a best bid and a best ask exist, the best bid is
strictly below the best ask. -/
theorem C3_no_cross_reachable (ops : List EngineOp) (pb pa : ℚ)
    (hb : OrderBook.get_best_bid (runOps ops).1 = some pb)
    (ha : OrderBook.get_best_ask (runOps ops).1 = some pa) :
    pb < pa := by
  have hInv := runOps_inv ops
  simp only [OrderBook.get_best_bid] at hb
  simp only [OrderBook.get_best_ask] at ha
  obtain ⟨hbm, _⟩ := maxKey_spec _ _ hb
  obtain ⟨ham, _⟩ := minKey_spec _ _ ha
  have hbm2 : pb ∈ ((runOps ops).1.bids).map (·.1) := hbm
  have ham2 : pa ∈ ((runOps ops).1.asks).map (·.1) := ham
  obtain ⟨e1, he1, hk1⟩ := List.mem_map.mp hbm2
  obtain ⟨e2, he2, hk2⟩ := List.mem_map.mp ham2
  have h := hInv.2.2 e1 he1 e2 he2
  rw [hk1, hk2] at h
  exact h

theorem C3_no_cross_reachable_w :
    OrderBook.get_best_bid (runOps opsC3).1 = some 99 ∧
    OrderBook.get_best_ask (runOps opsC3).1 = some 101 ∧ (99 : ℚ) < 101 :=
  ⟨by with_unfolding_all decide, by with_unfolding_all decide,
    C3_no_cross_reachable opsC3 99 101 (by with_unfolding_all decide)
      (by with_unfolding_all decide)⟩

/-- Claim C4 (confirmed): every trade emitted by `process_order` on a
well-formed book has the incoming order's side as aggressor side, the
incoming order's id as taker id, its price is the dict key of an opposite
level of the pre-state, and its maker id is the id of a resting order of
that level whose canonical price is that key. -/
theorem C4_trade_fields (b : OrderBook) (o : Order) (tid : Nat) (hInv : Inv b) :
    ∀ t ∈ (process_order b o tid).trades,
      t.aggressor_side = o.side ∧ t.taker_order_id = o.id ∧
      ∃ e ∈ bookSide b (opp o.side), t.price = e.1 ∧
        ∃ r ∈ e.2.orders, t.maker_order_id = r.id ∧ normalize_price (priceQ r) = e.1 := by
  intro t ht
  rcases process_order_trades b o tid with hpt | hpt | hpt
  · rw [hpt] at ht
    exact match_order_trade_fields b o true tid hInv t ht
  · rw [hpt] at ht
    exact match_order_trade_fields b o false tid hInv t ht
  · rw [hpt] at ht
    exact absurd ht (List.not_mem_nil t)

theorem C4_trade_fields_w :
    Inv oneAskBook ∧
    ∀ t ∈ (process_order oneAskBook (limO 2 Side.buy 3 100) 1).trades,
      t.aggressor_side = (limO 2 Side.buy 3 100).side ∧
      t.taker_order_id = (limO 2 Side.buy 3 100).id ∧
      ∃ e ∈ bookSide oneAskBook (opp (limO 2 Side.buy 3 100).side), t.price = e.1 ∧
        ∃ r ∈ e.2.orders, t.maker_order_id = r.id ∧ normalize_price (priceQ r) = e.1 :=
  ⟨by with_unfolding_all decide,
    C4_trade_fields oneAskBook (limO 2 Side.buy 3 100) 1 (by with_unfolding_all decide)⟩

/-- Claim C5 (confirmed): the makers consumed by `process_order` on a
well-formed book are an initial segment of the priority stream (levels
best-price first, FIFO inside a level), and every trade but possibly the
last consumes its maker's full remaining quantity — so an earlier arrival at
a price is fully consumed before any later arrival at that price trades,
and a better level before a worse one. -/
theorem C5_price_time_priority (b : OrderBook) (o : Order) (tid : Nat) (hInv : Inv b) :
    ((process_order b o tid).trades.map (fun t => t.maker_order_id) =
      ((priorityOrders b o).take (process_order b o tid).trades.length).map
        (fun r => r.id)) ∧
    ∀ i : Nat, i + 1 < (process_order b o tid).trades.length →
      ((process_order b o tid).trades.getD i someTrade).quantity =
        ((priorityOrders b o).getD i someOrder).quantity := by
  rcases process_order_trades b o tid with hpt | hpt | hpt
  · rw [hpt]
    exact match_order_priority b o true tid hInv
  · rw [hpt]
    exact match_order_priority b o false tid hInv
  · rw [hpt]
    refine ⟨by simp, ?_⟩
    intro i hi
    simp at hi

theorem C5_price_time_priority_w :
    Inv twoAskBook ∧
    (((process_order twoAskBook (limO 3 Side.buy 3 100) 2).trades.map
        (fun t => t.maker_order_id) =
      ((priorityOrders twoAskBook (limO 3 Side.buy 3 100)).take
          (process_order twoAskBook (limO 3 Side.buy 3 100) 2).trades.length).map
        (fun r => r.id)) ∧
      ∀ i : Nat, i + 1 < (process_order twoAskBook (limO 3 Side.buy 3 100) 2).trades.length →
        ((process_order twoAskBook (limO 3 Side.buy 3 100) 2).trades.getD i someTrade).quantity =
          ((priorityOrders twoAskBook (limO 3 Side.buy 3 100)).getD i someOrder).quantity) :=
  ⟨by with_unfolding_all decide,
    C5_price_time_priority twoAskBook (limO 3 Side.buy 3 100) 2
      (by with_unfolding_all decide)⟩

/-- Claim C6 (code bug): `cancel_order` never returns `True`.  Its value is
`False` when the symbol has no book or the id is unknown, and otherwise the
value of `book.remove_order(order)` — which has no return statement, hence
`None` — even though the order was found and removed. -/
theorem C6_cancel_never_true :
    restsIn oneAskBook 1 = true ∧
    (cancel_order (some oneAskBook) 1).1 = PyCancelRet.pyNone ∧
    restsIn ((cancel_order (some oneAskBook) 1).2.getD emptyBook) 1 = false ∧
    (cancel_order (some oneAskBook) 99).1 = PyCancelRet.pyFalse ∧
    (cancel_order none 1).1 = PyCancelRet.pyFalse ∧
    ∀ r : PyCancelRet, r = PyCancelRet.pyFalse ∨ r = PyCancelRet.pyNone := by
  refine ⟨?_, ?_, ?_, ?_, ?_, ?_⟩
  · with_unfolding_all decide
  · with_unfolding_all decide
  · with_unfolding_all decide
  · with_unfolding_all decide
  · with_unfolding_all decide
  · intro r
    cases r
    · exact Or.inl rfl
    · exact Or.inr rfl

/-- Claim C7 (confirmed): an IOC order runs the matching pass with the
limit-price check (every trade prints within the incoming limit) and any
residual is discarded: an id foreign to the book before the call — the
incoming order's in particular — neither rests in a price level nor appears
in the id index afterwards. -/
theorem C7_ioc_discards_residual (b : OrderBook) (o : Order) (tid : Nat) (hInv : Inv b)
    (hioc : o.order_type = OrderType.ioc)
    (hrest : restsIn b o.id = false)
    (hidx : b.orders.any (fun e => e.1 == o.id) = false) :
    restsIn (process_order b o tid).book o.id = false ∧
    (process_order b o tid).book.orders.any (fun e => e.1 == o.id) = false ∧
    ∀ t ∈ (process_order b o tid).trades,
      (o.side = Side.buy → t.price ≤ normalize_price (priceQ o)) ∧
      (o.side = Side.sell → normalize_price (priceQ o) ≤ t.price) := by
  have hpe : process_order b o tid = match_order b o false tid := by
    have h1 : process_order b o tid = execute_limit_order b o true tid := by
      simp only [process_order, hioc]
    rw [h1, execute_limit_ioc_eq]
  rw [hpe]
  have hG := Inv_goodSides b hInv (opp o.side)
  obtain ⟨hts, hids, hdisj⟩ := match_order_char b o false tid hG
  have hrest2 : ∀ s, hasOrderId (bookSide b s) o.id = false := by
    intro s
    have h2 : (hasOrderId b.bids o.id || hasOrderId b.asks o.id) = false := hrest
    rw [Bool.or_eq_false_iff] at h2
    cases s
    · exact h2.1
    · exact h2.2
  have hidx2 : (match_order b o false tid).book.orders.any (fun e => e.1 == o.id) = false := by
    have h3 : (b.orders.map (fun e => e.1)).any (fun x => x == o.id) = false := by
      rw [any_key_map]
      exact hidx
    have h4 := any_false_of_sublist hids h3
    rw [any_key_map] at h4
    exact h4
  have hopp : hasOrderId (bookSide (match_order b o false tid).book (opp o.side)) o.id
      = false := by
    rcases hdisj with ⟨heq, _⟩ | ⟨ent, hentmem, _, _, _, _, hcr, hsur⟩
    · rw [heq]
      exact hrest2 (opp o.side)
    · by_cases hrem : sweepRemaining o.quantity ent.2.orders = []
      · obtain ⟨_, hbs⟩ := hcr hrem
        rw [hbs]
        refine (hasOrderId_false_iff _ _).mpr ?_
        intro e he r hr
        exact (hasOrderId_false_iff _ _).mp (hrest2 (opp o.side)) e
          (List.Sublist.subset (List.eraseP_sublist _) he) r hr
      · obtain ⟨_, _, hbs⟩ := hsur hrem
        rw [hbs]
        refine (hasOrderId_false_iff _ _).mpr ?_
        intro e he r hr
        obtain ⟨e0, he0, hk0, hor⟩ := mem_replaceVal _ _ _ e he
        rcases hor with heq0 | ⟨hk, hev⟩
        · rw [heq0] at hr
          exact (hasOrderId_false_iff _ _).mp (hrest2 (opp o.side)) e0 he0 r hr
        · rw [hev] at hr
          obtain ⟨r0, hr0, hid0, _, _⟩ := sweepRemaining_mem ent.2.orders o.quantity r hr
          rw [hid0]
          exact (hasOrderId_false_iff _ _).mp (hrest2 (opp o.side)) ent hentmem r0 hr0
  have hKeep : ∀ s, hasOrderId (bookSide (match_order b o false tid).book s) o.id = false := by
    intro s
    rcases side_cases o.side s with h | h
    · rw [h, hts]
      exact hrest2 o.side
    · rw [h]
      exact hopp
  refine ⟨?_, hidx2, ?_⟩
  · have h1 : restsIn (match_order b o false tid).book o.id =
        (hasOrderId (bookSide (match_order b o false tid).book Side.buy) o.id ||
         hasOrderId (bookSide (match_order b o false tid).book Side.sell) o.id) := rfl
    rw [h1, hKeep Side.buy, hKeep Side.sell]
    rfl
  · intro t ht
    rcases hdisj with ⟨heq, _⟩ | ⟨ent, hentmem, _, hpass, htr, _, _, _⟩
    · rw [heq] at ht
      exact absurd ht (List.not_mem_nil t)
    · rw [htr] at ht
      obtain ⟨_, hprice, _, _, _⟩ := sweepTrades_mem o ent.1 ent.2.orders o.quantity tid t ht
      rcases hpass with hmk | hpass
      · exact absurd hmk (by simp)
      · rcases hpass with ⟨hb, hle⟩ | ⟨hs, hle⟩
        · refine ⟨fun _ => ?_, fun hcon => ?_⟩
          · rw [hprice]
            exact hle
          · rw [hb] at hcon
            exact absurd hcon (by simp)
        · refine ⟨fun hcon => ?_, fun _ => ?_⟩
          · rw [hs] at hcon
            exact absurd hcon (by simp)
          · rw [hprice]
            exact hle

theorem C7_ioc_discards_residual_w :
    Inv oneAskBook ∧
    (iocO 2 Side.buy 3 100).order_type = OrderType.ioc ∧
    restsIn oneAskBook (iocO 2 Side.buy 3 100).id = false ∧
    oneAskBook.orders.any (fun e => e.1 == (iocO 2 Side.buy 3 100).id) = false ∧
    (restsIn (process_order oneAskBook (iocO 2 Side.buy 3 100) 1).book
        (iocO 2 Side.buy 3 100).id = false ∧
      (process_order oneAskBook (iocO 2 Side.buy 3 100) 1).book.orders.any
        (fun e => e.1 == (iocO 2 Side.buy 3 100).id) = false ∧
      ∀ t ∈ (process_order oneAskBook (iocO 2 Side.buy 3 100) 1).trades,
        ((iocO 2 Side.buy 3 100).side = Side.buy →
          t.price ≤ normalize_price (priceQ (iocO 2 Side.buy 3 100))) ∧
        ((iocO 2 Side.buy 3 100).side = Side.sell →
          normalize_price (priceQ (iocO 2 Side.buy 3 100)) ≤ t.price)) :=
  ⟨by with_unfolding_all decide, rfl, by with_unfolding_all decide,
    by with_unfolding_all decide,
    C7_ioc_discards_residual oneAskBook (iocO 2 Side.buy 3 100) 1
      (by with_unfolding_all decide) rfl (by with_unfolding_all decide)
      (by with_unfolding_all decide)⟩

/-- Claim C8 (code bug): `log_trade` computes the maker and taker fees, but
`models.Trade` declares no fee fields, so the pydantic constructor silently
drops them — the produced `Trade` is the same whatever the fee arguments,
and carries price, quantity, sides and ids only.  The computed values
themselves follow price*quantity*rate with rates 5/10000 and 1/1000. -/
theorem C8_fees_dropped :
    (∀ (tid : Nat) (sym : String) (p q : ℚ) (s : Side) (m t : Nat) (f1 f2 g1 g2 : ℚ),
        mkTradeModel tid sym p q s m t f1 f2 = mkTradeModel tid sym p q s m t g1 g2) ∧
    log_trade 7 "S" 100 2 Side.buy 1 2 =
      { trade_id := 7, symbol := "S", price := 100, quantity := 2,
        aggressor_side := Side.buy, maker_order_id := 1, taker_order_id := 2 } ∧
    pyRound4 (100 * 2 * MAKER_FEE_RATE) = 1/10 ∧
    pyRound4 (100 * 2 * TAKER_FEE_RATE) = 1/5 := by
  refine ⟨fun _ _ _ _ _ _ _ _ _ _ _ => rfl, rfl, ?_, ?_⟩
  · with_unfolding_all decide
  · with_unfolding_all decide

/-- Claim C9 (confirmed): for a pending conditional order with a truthy
trigger price and one of the three trigger types, `should_trigger` returns
true exactly when the spec's trigger table holds on the BBO: stop_loss and
stop_limit fire for a buy when ask ≥ trigger and for a sell when bid ≤
trigger; take_profit fires for a buy when ask ≤ trigger and for a sell when
bid ≥ trigger; an absent BBO side never triggers. -/
theorem C9_stop_trigger (o : Order) (bid ask : Option ℚ) (tp : ℚ) (tt : String)
    (h1 : o.trigger_price = some tp) (h2 : ¬ tp = 0) (h3 : o.trigger_type = some tt)
    (h4 : tt = "stop_loss" ∨ tt = "take_profit" ∨ tt = "stop_limit") :
    (should_trigger o bid ask = true ↔ trigger_table tt o.side bid ask tp) := by
  rcases h4 with rfl | rfl | rfl <;>
    cases hside : o.side <;> cases bid <;> cases ask <;>
      simp [should_trigger, trigger_table, h1, h3, h2, hside, pyTruthyOptQ, pyTruthyOptS]

theorem C9_stop_trigger_w :
    (stopO Side.sell "stop_loss" 99).trigger_price = some 99 ∧
    ¬ (99 : ℚ) = 0 ∧
    (stopO Side.sell "stop_loss" 99).trigger_type = some "stop_loss" ∧
    (should_trigger (stopO Side.sell "stop_loss" 99) (some 98) none = true ↔
      trigger_table "stop_loss" (stopO Side.sell "stop_loss" 99).side (some 98) none 99) :=
  ⟨rfl, by norm_num, rfl,
    C9_stop_trigger (stopO Side.sell "stop_loss" 99) (some 98) none 99 "stop_loss"
      rfl (by norm_num) rfl (Or.inl rfl)⟩

/-- Claim C10 (confirmed): `get_recent_trades` with `limit = 0` returns the
whole stored history newest-first (Python `[-0:]` is the whole list), and
with `limit > 0` the `min(limit, stored)` most recent trades newest-first. -/
theorem C10_recent_trades (dq : List Trade) (limit : Nat) :
    (limit = 0 → get_recent_trades dq limit = dq.reverse) ∧
    (0 < limit →
      get_recent_trades dq limit = dq.reverse.take limit ∧
      (get_recent_trades dq limit).length = min limit dq.length) := by
  constructor
  · intro h
    subst h
    simp [get_recent_trades]
  · intro h
    have hcond : ¬ ((limit == 0) = true) := by
      simp only [beq_iff_eq]
      omega
    have h1 : get_recent_trades dq limit = (dq.drop (dq.length - limit)).reverse := by
      simp only [get_recent_trades]
      rw [if_neg hcond]
    have h2 : dq.reverse.take limit = (dq.drop (dq.length - limit)).reverse :=
      List.take_reverse
    refine ⟨by rw [h1, h2], ?_⟩
    rw [h1]
    simp only [List.length_reverse, List.length_drop]
    omega

theorem C10_recent_trades_w :
    (get_recent_trades dqSample 0 = dqSample.reverse) ∧
    (get_recent_trades dqSample 2 = dqSample.reverse.take 2 ∧
      (get_recent_trades dqSample 2).length = min 2 dqSample.length) :=
  ⟨(C10_recent_trades dqSample 0).1 rfl,
   (C10_recent_trades dqSample 2).2 (by decide)⟩


end Engine
